import Mathlib

/-!
Verification of the core text-transformation engine of a Coq source-code
formatter (src/coq_formatter.py).  The engine is a pure function on text,
built from three passes:

* `format_comment_spaces` — two sequential regex substitutions:
  `re.sub(r"\(\*(?!\s)", "(* ", text)` followed by
  `re.sub(r"(?<!\s)\*\)", " *)", text)`;
* `ensure_newline_before_keywords` — one substitution inserting a line
  feed before whole-word occurrences of twelve trigger keywords that are
  not at the start of the document and not immediately preceded by a
  line feed;
* a final normalization replacing the two-character sequence CR LF by LF
  and then every remaining CR by LF.

Text is modelled as `List Char`.  Each `re.sub` is modelled as the
left-to-right non-overlapping scan that Python performs: at each
position the pattern is tried (lookahead and lookbehind examined on the
text being scanned, never on replacement text); on a match the
replacement is emitted and the scan resumes after the matched text; on
a failure one character is emitted and the scan advances by one.  The
character classes of the Python patterns are modelled on the ASCII
range: the whitespace class matches space, TAB, LF, VT, FF and CR; the
word class matches ASCII letters, digits and the underscore.
-/

/-- Python regex whitespace class restricted to ASCII: space, TAB, LF,
VT, FF, CR. -/
def isSpace (c : Char) : Bool :=
  c = ' ' || c = '\t' || c = '\n' || c = '\x0b' || c = '\x0c' || c = '\r'

/-- Python regex word class restricted to ASCII: letters, digits and
the underscore. -/
def isWordChar (c : Char) : Bool :=
  c.isAlphanum || c = '_'

/-- Negative lookahead of the open-marker pattern: true when the text
after the matched marker does not start with a whitespace character
(in particular at end of text). -/
def nextNotSpace : List Char → Bool
  | [] => true
  | d :: _ => !isSpace d

/-- Negative lookbehind of the close-marker pattern: true when the
character before the match position is absent (start of text) or not a
whitespace character. -/
def prevNotSpace : Option Char → Bool
  | none => true
  | some q => !isSpace q

/-- First substitution of `format_comment_spaces`: replace every
occurrence of the open-comment marker that is not followed by
whitespace by the marker plus one space. -/
def subOpen : List Char → List Char
  | [] => []
  | [c] => [c]
  | a :: b :: rest =>
    if a = '(' ∧ b = '*' ∧ nextNotSpace rest = true then
      '(' :: '*' :: ' ' :: subOpen rest
    else
      a :: subOpen (b :: rest)

/-- Second substitution of `format_comment_spaces`: replace every
occurrence of the close-comment marker that is not preceded by
whitespace by one space plus the marker.  The parameter is the
character immediately before the current scan position, examined by
the lookbehind; `none` at start of text. -/
def subCloseAux (p : Option Char) : List Char → List Char
  | [] => []
  | [c] => [c]
  | a :: b :: rest =>
    if a = '*' ∧ b = ')' ∧ prevNotSpace p = true then
      ' ' :: '*' :: ')' :: subCloseAux (some ')') rest
    else
      a :: subCloseAux (some a) (b :: rest)

/-- The Comment-Spacer pass: the two substitutions in source order. -/
def format_comment_spaces (t : List Char) : List Char :=
  subCloseAux none (subOpen t)

/-- The trigger keywords, in the order of the alternation built by the
source (the order matters: Admitted is tried before Admit). -/
def keywords : List (List Char) :=
  [ "Lemma".toList, "Theorem".toList, "Definition".toList,
    "Fixpoint".toList, "Proof".toList, "Qed".toList,
    "Admitted".toList, "Admit".toList, "Corollary".toList,
    "Remark".toList, "Proposition".toList, "Example".toList ]

/-- Executable prefix test on character lists. -/
def isPrefixList : List Char → List Char → Bool
  | [], _ => true
  | _ :: _, [] => false
  | a :: as, b :: bs => a == b && isPrefixList as bs

/-- Trailing word boundary of the keyword pattern: after the matched
keyword the text ends or continues with a non-word character. -/
def boundaryAfter (kw t : List Char) : Bool :=
  match (t.drop kw.length).head? with
  | none => true
  | some d => !isWordChar d

/-- First keyword of the given alternation list that matches at the
start of the text (prefix plus trailing word boundary).  The regex
engine tries the alternatives in order and backtracks out of an
alternative whose trailing boundary fails, so the first alternative
that is a prefix and has the boundary wins. -/
def firstKw (t : List Char) : List (List Char) → Option (List Char)
  | [] => none
  | kw :: rest =>
    if isPrefixList kw t && boundaryAfter kw t then some kw
    else firstKw t rest

/-- Keyword alternation match at the start of the text. -/
def findKw (t : List Char) : Option (List Char) :=
  firstKw t keywords

/-- Full match test of the keyword pattern at the current position:
the two negative lookbehinds require a preceding character that is not
a line feed and not the start of text, the leading word boundary
requires that preceding character to be a non-word character (every
keyword starts with a letter), and the alternation must match. -/
def kwTrigger (p : Option Char) (t : List Char) : Option (List Char) :=
  match p with
  | none => none
  | some q => if isWordChar q = true ∨ q = '\n' then none else findKw t

/-- Last character of a keyword (all keywords are nonempty; the
default is never used). -/
def kwLast (kw : List Char) : Char :=
  kw.getLastD 'A'

/-- The Keyword-Liner substitution scan.  On a match the replacement
(line feed followed by the matched keyword) is emitted and the scan
resumes after the matched keyword, with the lookbehind now examining
the last character of the keyword; since every keyword is nonempty,
dropping its length from the whole text equals dropping one less from
the tail. -/
def ensureAux (p : Option Char) (t : List Char) : List Char :=
  match t with
  | [] => []
  | c :: rest =>
    match kwTrigger p (c :: rest) with
    | some kw => '\n' :: (kw ++ ensureAux (some (kwLast kw)) (rest.drop (kw.length - 1)))
    | none => c :: ensureAux (some c) rest
termination_by t.length
decreasing_by
· simp only [List.length_drop, List.length_cons]
  omega
· simp only [List.length_cons]
  omega

/-- The Keyword-Liner pass. -/
def ensure_newline_before_keywords (t : List Char) : List Char :=
  ensureAux none t

/-- First normalization step: `text.replace` of CR LF by LF,
left-to-right and non-overlapping. -/
def replaceCRLF : List Char → List Char
  | [] => []
  | [c] => [c]
  | a :: b :: rest =>
    if a = '\r' ∧ b = '\n' then '\n' :: replaceCRLF rest
    else a :: replaceCRLF (b :: rest)

/-- Second normalization step: `text.replace` of CR by LF. -/
def replaceCR : List Char → List Char
  | [] => []
  | c :: rest => if c = '\r' then '\n' :: replaceCR rest else c :: replaceCR rest

/-- The whole pipeline `format_coq_code`: comment spacing, then
keyword newlines, then line-ending normalization. -/
def format_coq_code (t : List Char) : List Char :=
  replaceCR (replaceCRLF (ensure_newline_before_keywords (format_comment_spaces t)))

/-! ## Output postcondition scanners

Boolean scanners that walk a text one position at a time and check a
local condition at every position.  The `Ok` variants state the
postconditions of the specification (an open marker at the very end of
the text, or a close marker at the very start, counts as correctly
spaced); the `Tight` variants additionally rule these edge positions
out, which is what the passes actually produce, and are used for the
idempotence argument. -/

/-- Head of the text is a whitespace character; the given default is
used for empty text. -/
def headSpaceOr (b : Bool) (w : List Char) : Bool :=
  match w.head? with
  | none => b
  | some d => isSpace d

/-- The preceding character is a whitespace character; the given
default is used at start of text. -/
def prevSpaceOr (b : Bool) : Option Char → Bool
  | none => b
  | some q => isSpace q

/-- Position check: if an open marker starts here, the text after it
starts with whitespace or ends. -/
def openOkAt (c : Char) (w : List Char) : Bool :=
  if c = '(' ∧ w.head? = some '*' then headSpaceOr true w.tail else true

/-- Position check: if an open marker starts here, the text after it
starts with whitespace (end of text not allowed). -/
def openTightAt (c : Char) (w : List Char) : Bool :=
  if c = '(' ∧ w.head? = some '*' then headSpaceOr false w.tail else true

/-- Every open marker is followed by whitespace or ends the text. -/
def openSpaced : List Char → Bool
  | [] => true
  | c :: w => openOkAt c w && openSpaced w

/-- Every open marker is followed by whitespace. -/
def openTight : List Char → Bool
  | [] => true
  | c :: w => openTightAt c w && openTight w

/-- Position check: if a close marker starts here, the preceding
character is whitespace or the marker starts the text. -/
def closeOkAt (p : Option Char) (c : Char) (w : List Char) : Bool :=
  if c = '*' ∧ w.head? = some ')' then prevSpaceOr true p else true

/-- Position check: if a close marker starts here, the preceding
character is whitespace (start of text not allowed). -/
def closeTightAt (p : Option Char) (c : Char) (w : List Char) : Bool :=
  if c = '*' ∧ w.head? = some ')' then prevSpaceOr false p else true

/-- Every close marker is preceded by whitespace or starts the text;
the parameter is the character before the current position. -/
def closeSpacedAux (p : Option Char) : List Char → Bool
  | [] => true
  | c :: w => closeOkAt p c w && closeSpacedAux (some c) w

/-- Every close marker is preceded by whitespace. -/
def closeTightAux (p : Option Char) : List Char → Bool
  | [] => true
  | c :: w => closeTightAt p c w && closeTightAux (some c) w

/-- Position check for keyword placement: if a whole-word trigger
keyword starts here (alternation matches and the preceding character
is a non-word character), the preceding character is a line feed; a
keyword at the very start of the text is fine. -/
def kwOkAt (p : Option Char) (t : List Char) : Bool :=
  match p with
  | none => true
  | some q => if (findKw t).isSome ∧ isWordChar q = false then decide (q = '\n') else true

/-- Every whole-word trigger keyword occurrence is at the start of the
text or immediately preceded by a line feed. -/
def kwPlacedAux (p : Option Char) : List Char → Bool
  | [] => true
  | c :: w => kwOkAt p (c :: w) && kwPlacedAux (some c) w

/-- The text contains no carriage return. -/
def noCR (t : List Char) : Bool :=
  t.all (fun c => c != '\r')

/-- Heads of the trigger keywords. -/
def isKeywordHead (c : Char) : Bool :=
  c = 'L' || c = 'T' || c = 'D' || c = 'F' || c = 'P' || c = 'Q' ||
  c = 'A' || c = 'C' || c = 'R' || c = 'E'

/-- The keyword starts with one of the keyword head letters. -/
def kwHeadOk (kw : List Char) : Bool :=
  match kw.head? with
  | none => false
  | some k => isKeywordHead k

/-- Last element of a list, falling back to the given previous
character for the empty list.  Used to thread the lookbehind state
through a block of copied characters. -/
def pushLastOpt (l : List Char) (p : Option Char) : Option Char :=
  match l.getLast? with
  | some x => some x
  | none => p

/-- Character image of the CR to LF replacement. -/
def crChar (c : Char) : Char :=
  if c = '\r' then '\n' else c

/-- Erase every whitespace character from a text. -/
def stripWS : List Char → List Char
  | [] => []
  | c :: w => if isSpace c = true then stripWS w else c :: stripWS w

/-! ## Simultaneous-replacement reading of the Comment-Spacer

The claim describes the Comment-Spacer as computing all spans of the two
markers on the original text and replacing all of them at once.  The
following definitions transcribe that reading: a span predicate per
position computed on one fixed text, and an output built by walking the
positions of that text, inserting one space after each open-marker span
and one space before each close-marker span. -/

/-- Concatenation of a position-indexed block over a list of positions. -/
def catMap (f : Nat → List Char) : List Nat → List Char
  | [] => []
  | j :: js => f j ++ catMap f js

/-- An open-marker span starts at position i of the text: the two marker
characters are present and the character after them, if any, is not
whitespace. -/
def openSpanAt (t : List Char) (i : Nat) : Bool :=
  match t[i]?, t[i + 1]?, t[i + 2]? with
  | some a, some b, o =>
    decide (a = '(') && decide (b = '*') &&
      (match o with
       | none => true
       | some d => !isSpace d)
  | _, _, _ => false

/-- A close-marker span starts at position i of the text: the two marker
characters are present and the character before the span (the given
previous character when i is zero) is absent or not whitespace. -/
def closeSpanAt (p : Option Char) (t : List Char) (i : Nat) : Bool :=
  match t[i]?, t[i + 1]? with
  | some a, some b =>
    decide (a = '*') && decide (b = ')') &&
      (match i with
       | 0 => prevNotSpace p
       | k + 1 =>
         match t[k]? with
         | none => true
         | some d => !isSpace d)
  | _, _ => false

/-- Simultaneous replacement of all open-marker spans of the text: one
space is inserted after each span, all spans being computed on the one
given text. -/
def specOpenSim (t : List Char) : List Char :=
  catMap (fun j => (t[j]?).toList ++
    (match j with
     | 0 => []
     | i + 1 => if openSpanAt t i = true then [' '] else []))
    (List.range t.length)

/-- Simultaneous replacement of all close-marker spans of the text: one
space is inserted before each span, all spans being computed on the one
given text. -/
def specCloseSim (p : Option Char) (t : List Char) : List Char :=
  catMap (fun j => (if closeSpanAt p t j = true then [' '] else []) ++ (t[j]?).toList)
    (List.range t.length)

/-- Simultaneous replacement of the spans of both markers, all computed
on the one original text, as the claim reads: one space after each open
marker and one space before each close marker, inserted at once. -/
def specCommentSim (t : List Char) : List Char :=
  catMap (fun j =>
    (if closeSpanAt none t j = true then [' '] else []) ++ (t[j]?).toList ++
      (match j with
       | 0 => []
       | i + 1 => if openSpanAt t i = true then [' '] else []))
    (List.range t.length)

/-- Tail of the open-marker simultaneous replacement after one leading
character: spans are still those of the full text. -/
def specOpenAux (a : Char) (v : List Char) : List Char :=
  catMap (fun j => (v[j]?).toList ++
    (if openSpanAt (a :: v) j = true then [' '] else []))
    (List.range v.length)

/-! ## Unfolding equations for the scanning functions -/

theorem subOpen_match (rest : List Char) (h : nextNotSpace rest = true) :
    subOpen ('(' :: '*' :: rest) = '(' :: '*' :: ' ' :: subOpen rest := by
  simp [subOpen, h]

theorem subOpen_cons_ne (a b : Char) (rest : List Char)
    (h : ¬(a = '(' ∧ b = '*' ∧ nextNotSpace rest = true)) :
    subOpen (a :: b :: rest) = a :: subOpen (b :: rest) := by
  rw [subOpen, if_neg h]

theorem subOpen_cons_of_ne (a : Char) (w : List Char) (h : a ≠ '(') :
    subOpen (a :: w) = a :: subOpen w := by
  match w with
  | [] => rfl
  | b :: rest => exact subOpen_cons_ne a b rest (by simp [h])

theorem subClose_match (p : Option Char) (rest : List Char) (h : prevNotSpace p = true) :
    subCloseAux p ('*' :: ')' :: rest) = ' ' :: '*' :: ')' :: subCloseAux (some ')') rest := by
  simp [subCloseAux, h]

theorem subClose_cons_ne (p : Option Char) (a b : Char) (rest : List Char)
    (h : ¬(a = '*' ∧ b = ')' ∧ prevNotSpace p = true)) :
    subCloseAux p (a :: b :: rest) = a :: subCloseAux (some a) (b :: rest) := by
  rw [subCloseAux, if_neg h]

theorem subClose_cons_of_ne (p : Option Char) (a : Char) (w : List Char) (h : a ≠ '*') :
    subCloseAux p (a :: w) = a :: subCloseAux (some a) w := by
  match w with
  | [] => rfl
  | b :: rest => exact subClose_cons_ne p a b rest (by simp [h])

theorem ensureAux_nil (p : Option Char) : ensureAux p [] = [] := by
  rw [ensureAux]

theorem ensureAux_cons_some (p : Option Char) (c : Char) (rest kw : List Char)
    (h : kwTrigger p (c :: rest) = some kw) :
    ensureAux p (c :: rest) =
      '\n' :: (kw ++ ensureAux (some (kwLast kw)) (rest.drop (kw.length - 1))) := by
  rw [ensureAux, h]

theorem ensureAux_cons_none (p : Option Char) (c : Char) (rest : List Char)
    (h : kwTrigger p (c :: rest) = none) :
    ensureAux p (c :: rest) = c :: ensureAux (some c) rest := by
  rw [ensureAux, h]

theorem replaceCRLF_match (rest : List Char) :
    replaceCRLF ('\r' :: '\n' :: rest) = '\n' :: replaceCRLF rest := by
  simp [replaceCRLF]

theorem replaceCRLF_cons_ne (a b : Char) (rest : List Char) (h : ¬(a = '\r' ∧ b = '\n')) :
    replaceCRLF (a :: b :: rest) = a :: replaceCRLF (b :: rest) := by
  rw [replaceCRLF, if_neg h]

theorem replaceCRLF_cons_of_ne (a : Char) (w : List Char) (h : a ≠ '\r') :
    replaceCRLF (a :: w) = a :: replaceCRLF w := by
  match w with
  | [] => rfl
  | b :: rest => exact replaceCRLF_cons_ne a b rest (by simp [h])

theorem replaceCR_cr (w : List Char) : replaceCR ('\r' :: w) = '\n' :: replaceCR w := by
  simp [replaceCR]

theorem replaceCR_cons_of_ne (c : Char) (w : List Char) (h : c ≠ '\r') :
    replaceCR (c :: w) = c :: replaceCR w := by
  simp [replaceCR, h]

/-! ## Facts about the keyword table -/

theorem keywords_alpha : ∀ kw ∈ keywords, kw.all Char.isAlpha = true := by decide

theorem keywords_headOk : ∀ kw ∈ keywords, kwHeadOk kw = true := by decide

theorem isWordChar_of_alpha (c : Char) (h : c.isAlpha = true) : isWordChar c = true := by
  simp [isWordChar, Char.isAlphanum, h]

theorem firstKw_some (t kw : List Char) :
    ∀ l, firstKw t l = some kw →
      kw ∈ l ∧ isPrefixList kw t = true ∧ boundaryAfter kw t = true := by
  intro l
  induction l with
  | nil => intro h; simp [firstKw] at h
  | cons kw2 l2 ih =>
    intro h
    rw [firstKw] at h
    by_cases hc : (isPrefixList kw2 t && boundaryAfter kw2 t) = true
    · rw [if_pos hc] at h
      rw [Bool.and_eq_true] at hc
      obtain ⟨h1, h2⟩ := hc
      cases h
      exact ⟨List.mem_cons_self _ _, h1, h2⟩
    · rw [if_neg hc] at h
      obtain ⟨m, h1, h2⟩ := ih h
      exact ⟨List.mem_cons_of_mem _ m, h1, h2⟩

theorem findKw_some (t kw : List Char) (h : findKw t = some kw) :
    kw ∈ keywords ∧ isPrefixList kw t = true ∧ boundaryAfter kw t = true :=
  firstKw_some t kw keywords h

theorem findKw_nil : findKw [] = none := by decide

theorem findKw_none_of_head (x : Char) (u : List Char) (h : isKeywordHead x = false) :
    findKw (x :: u) = none := by
  have main : ∀ l : List (List Char), (∀ kw ∈ l, kwHeadOk kw = true) →
      firstKw (x :: u) l = none := by
    intro l
    induction l with
    | nil => intro _; rfl
    | cons kw l2 ih =>
      intro hall
      have hk := hall kw (List.mem_cons_self _ _)
      rw [firstKw]
      have hcond : (isPrefixList kw (x :: u) && boundaryAfter kw (x :: u)) = false := by
        match kw with
        | [] => simp [kwHeadOk] at hk
        | k :: kw2 =>
          simp only [kwHeadOk, List.head?] at hk
          have hkx : (k == x) = false := by
            by_cases hkx2 : k = x
            · subst hkx2; rw [hk] at h; exact absurd h (by simp)
            · simp [hkx2]
          simp [isPrefixList, hkx]
      rw [hcond]
      simp only [Bool.false_eq_true, if_false]
      exact ih (fun kw2 hm => hall kw2 (List.mem_cons_of_mem _ hm))
  exact main keywords keywords_headOk

/-! ## Small helper lemmas -/

theorem alpha_facts (c : Char) (h : c.isAlpha = true) :
    c ≠ '(' ∧ c ≠ '*' ∧ c ≠ ')' ∧ c ≠ '\r' ∧ c ≠ '\n' ∧ isWordChar c = true := by
  refine ⟨?_, ?_, ?_, ?_, ?_, isWordChar_of_alpha c h⟩ <;>
    · intro heq
      subst heq
      exact absurd h (by decide)

theorem kw_mem_alpha (kw : List Char) (hm : kw ∈ keywords) :
    ∀ c ∈ kw, c.isAlpha = true := by
  have h := keywords_alpha kw hm
  rw [List.all_eq_true] at h
  intro c hc
  exact h c hc

theorem kw_ne_nil (kw : List Char) (hm : kw ∈ keywords) : kw ≠ [] := by
  have h := keywords_headOk kw hm
  intro he
  subst he
  simp [kwHeadOk] at h

theorem subOpen_head : ∀ t : List Char, (subOpen t).head? = t.head? := by
  intro t
  match t with
  | [] => rfl
  | [c] => rfl
  | a :: b :: rest =>
    rw [subOpen]
    split
    · rename_i h
      obtain ⟨rfl, -, -⟩ := h
      rfl
    · rfl

theorem subClose_head_of_ne (p : Option Char) (a : Char) (w : List Char) (h : a ≠ '*') :
    (subCloseAux p (a :: w)).head? = some a := by
  rw [subClose_cons_of_ne p a w h]
  rfl

theorem ensure_head (p : Option Char) (c : Char) (rest : List Char) :
    (ensureAux p (c :: rest)).head? = some c ∨ (ensureAux p (c :: rest)).head? = some '\n' := by
  cases htr : kwTrigger p (c :: rest) with
  | none => rw [ensureAux_cons_none _ _ _ htr]; left; rfl
  | some kw => rw [ensureAux_cons_some _ _ _ _ htr]; right; rfl

theorem ensure_head_word (q : Char) (s : List Char) (h : isWordChar q = true) :
    (ensureAux (some q) s).head? = s.head? := by
  match s with
  | [] => rw [ensureAux_nil]
  | c :: rest =>
    have htr : kwTrigger (some q) (c :: rest) = none := by simp [kwTrigger, h]
    rw [ensureAux_cons_none _ _ _ htr]
    rfl

theorem openTight_cons (c : Char) (w : List Char) :
    openTight (c :: w) = (openTightAt c w && openTight w) := rfl

theorem openSpaced_cons (c : Char) (w : List Char) :
    openSpaced (c :: w) = (openOkAt c w && openSpaced w) := rfl

theorem closeTight_cons (p : Option Char) (c : Char) (w : List Char) :
    closeTightAux p (c :: w) = (closeTightAt p c w && closeTightAux (some c) w) := rfl

theorem closeSpaced_cons (p : Option Char) (c : Char) (w : List Char) :
    closeSpacedAux p (c :: w) = (closeOkAt p c w && closeSpacedAux (some c) w) := rfl

theorem kwPlaced_cons (p : Option Char) (c : Char) (w : List Char) :
    kwPlacedAux p (c :: w) = (kwOkAt p (c :: w) && kwPlacedAux (some c) w) := rfl

theorem openTightAt_of_ne (c : Char) (w : List Char) (h : c ≠ '(') :
    openTightAt c w = true := by
  simp [openTightAt, h]

theorem openTightAt_of_head_ne (c : Char) (w : List Char) (h : w.head? ≠ some '*') :
    openTightAt c w = true := by
  simp [openTightAt, h]

theorem openTightAt_paren (w2 : List Char) :
    openTightAt '(' ('*' :: w2) = headSpaceOr false w2 := by
  simp [openTightAt]

theorem closeTightAt_of_ne (p : Option Char) (c : Char) (w : List Char) (h : c ≠ '*') :
    closeTightAt p c w = true := by
  simp [closeTightAt, h]

theorem closeTightAt_of_head_ne (p : Option Char) (c : Char) (w : List Char)
    (h : w.head? ≠ some ')') : closeTightAt p c w = true := by
  simp [closeTightAt, h]

theorem closeTightAt_star (p : Option Char) (w2 : List Char) :
    closeTightAt p '*' (')' :: w2) = prevSpaceOr false p := by
  simp [closeTightAt]

theorem kwOkAt_none (t : List Char) : kwOkAt none t = true := rfl

theorem kwOkAt_word (q : Char) (t : List Char) (h : isWordChar q = true) :
    kwOkAt (some q) t = true := by
  simp [kwOkAt, h]

theorem kwOkAt_nl (t : List Char) : kwOkAt (some '\n') t = true := by
  simp [kwOkAt]

theorem kwOkAt_of_findKw_none (p : Option Char) (t : List Char) (h : findKw t = none) :
    kwOkAt p t = true := by
  cases p with
  | none => rfl
  | some q => simp [kwOkAt, h]

theorem kwOkAt_forces (q : Char) (t : List Char) (h1 : kwOkAt (some q) t = true)
    (h2 : isWordChar q = false) (h3 : q ≠ '\n') : findKw t = none := by
  cases hf : findKw t with
  | none => rfl
  | some kw =>
    exfalso
    simp [kwOkAt, hf, h2] at h1
    exact h3 h1

theorem pushLastOpt_cons (x : Char) (l2 : List Char) (p : Option Char) :
    pushLastOpt (x :: l2) p = pushLastOpt l2 (some x) := by
  cases l2 with
  | nil => simp [pushLastOpt]
  | cons y l3 =>
    unfold pushLastOpt
    rw [List.getLast?_cons_cons]
    cases hgl : (y :: l3).getLast? with
    | none => exact absurd (List.getLast?_eq_none_iff.mp hgl) (by simp)
    | some z => rfl

theorem pushLastOpt_of_ne_nil (l : List Char) (p : Option Char) (h : l ≠ []) :
    pushLastOpt l p = some (kwLast l) := by
  cases hgl : l.getLast? with
  | none => exact absurd (List.getLast?_eq_none_iff.mp hgl) h
  | some y =>
    simp only [pushLastOpt, hgl, kwLast]
    rw [List.getLastD_eq_getLast?, hgl]
    rfl

theorem openTight_append_no_paren (l s : List Char) (h : ∀ x ∈ l, x ≠ '(') :
    openTight (l ++ s) = openTight s := by
  induction l with
  | nil => rfl
  | cons x l2 ih =>
    rw [List.cons_append, openTight_cons,
      openTightAt_of_ne x _ (h x (List.mem_cons_self _ _)),
      ih (fun y hy => h y (List.mem_cons_of_mem _ hy))]
    simp

theorem closeTight_append_no_star (l : List Char) :
    ∀ (s : List Char) (p : Option Char), (∀ x ∈ l, x ≠ '*') →
      closeTightAux p (l ++ s) = closeTightAux (pushLastOpt l p) s := by
  induction l with
  | nil => intro s p _; rfl
  | cons x l2 ih =>
    intro s p h
    rw [List.cons_append, closeTight_cons,
      closeTightAt_of_ne p x _ (h x (List.mem_cons_self _ _)),
      ih s (some x) (fun y hy => h y (List.mem_cons_of_mem _ hy)),
      pushLastOpt_cons]
    simp

theorem kwPlaced_append_word (l : List Char) :
    ∀ (s : List Char) (p : Option Char), l ≠ [] → (∀ x ∈ l, isWordChar x = true) →
      kwPlacedAux p (l ++ s) = (kwOkAt p (l ++ s) && kwPlacedAux (pushLastOpt l p) s) := by
  induction l with
  | nil => intro s p h _; exact absurd rfl h
  | cons x l2 ih =>
    intro s p _ hw
    rw [List.cons_append, kwPlaced_cons, pushLastOpt_cons]
    match l2 with
    | [] => simp [pushLastOpt]
    | y :: l3 =>
      rw [ih s (some x) (by simp) (fun z hz => hw z (List.mem_cons_of_mem _ hz)),
        kwOkAt_word x _ (hw x (List.mem_cons_self _ _))]
      simp

theorem isPrefixList_exists (kw : List Char) :
    ∀ t, isPrefixList kw t = true → ∃ s, t = kw ++ s := by
  induction kw with
  | nil => intro t _; exact ⟨t, rfl⟩
  | cons a as ih =>
    intro t h
    match t with
    | [] => simp [isPrefixList] at h
    | b :: bs =>
      simp only [isPrefixList, Bool.and_eq_true, beq_iff_eq] at h
      obtain ⟨rfl, h2⟩ := h
      obtain ⟨s, rfl⟩ := ih bs h2
      exact ⟨s, rfl⟩

theorem drop_pref (c : Char) (rest kw s : List Char) (hkw : kw ≠ [])
    (heq : c :: rest = kw ++ s) : rest.drop (kw.length - 1) = s := by
  match kw, heq with
  | k :: kw2, heq =>
    rw [List.cons_append] at heq
    injection heq with h1 h2
    subst h2
    simp [List.drop_left]

theorem headSpaceOr_nil (b : Bool) : headSpaceOr b [] = b := rfl

theorem headSpaceOr_cons (b : Bool) (d : Char) (w : List Char) :
    headSpaceOr b (d :: w) = isSpace d := rfl

theorem headSpaceOr_of_head (b : Bool) (w : List Char) (d : Char) (h : w.head? = some d) :
    headSpaceOr b w = isSpace d := by
  simp [headSpaceOr, h]

theorem prevSpaceOr_none (b : Bool) : prevSpaceOr b none = b := rfl

theorem prevSpaceOr_some (b : Bool) (q : Char) : prevSpaceOr b (some q) = isSpace q := rfl

theorem nextNotSpace_false (rest : List Char) (h : nextNotSpace rest = false) :
    ∃ d r2, rest = d :: r2 ∧ isSpace d = true := by
  match rest with
  | [] => simp [nextNotSpace] at h
  | d :: r2 =>
    simp only [nextNotSpace, Bool.not_eq_false'] at h
    exact ⟨d, r2, rfl, h⟩

theorem prevNotSpace_false (p : Option Char) (h : prevNotSpace p = false) :
    ∃ q, p = some q ∧ isSpace q = true := by
  match p with
  | none => simp [prevNotSpace] at h
  | some q =>
    simp only [prevNotSpace, Bool.not_eq_false'] at h
    exact ⟨q, rfl, h⟩

theorem space_facts (d : Char) (h : isSpace d = true) :
    d ≠ '(' ∧ d ≠ '*' ∧ d ≠ ')' := by
  refine ⟨?_, ?_, ?_⟩ <;>
    · intro heq
      subst heq
      exact absurd h (by decide)

theorem closeTightAt_eval (p : Option Char) (w : List Char) (h : w.head? = some ')') :
    closeTightAt p '*' w = prevSpaceOr false p := by
  simp [closeTightAt, h]

theorem subClose_head (q : Option Char) (b : Char) (w : List Char) :
    (subCloseAux q (b :: w)).head? = some b ∨ (subCloseAux q (b :: w)).head? = some ' ' := by
  match w with
  | [] => left; rfl
  | b2 :: w2 =>
    rw [subCloseAux]
    split
    · right; rfl
    · left; rfl

/-! ## The Comment-Spacer establishes tight comment spacing -/

theorem openTight_subOpen : ∀ t : List Char, openTight (subOpen t) = true := by
  intro t
  induction t using subOpen.induct with
  | case1 => rfl
  | case2 c =>
    show openTight [c] = true
    rw [openTight_cons, openTightAt_of_head_ne c [] (by simp)]
    rfl
  | case3 a b rest h ih =>
    obtain ⟨rfl, rfl, hnns⟩ := h
    rw [subOpen_match rest hnns]
    rw [openTight_cons, openTight_cons, openTight_cons, openTightAt_paren,
      headSpaceOr_cons, openTightAt_of_ne '*' _ (by decide),
      openTightAt_of_ne ' ' _ (by decide), ih]
    decide
  | case4 a b rest h ih =>
    rw [subOpen_cons_ne a b rest h, openTight_cons, ih, Bool.and_true]
    by_cases ha : a = '('
    · subst ha
      by_cases hb : b = '*'
      · subst hb
        have hnns : nextNotSpace rest = false := by
          cases hnn : nextNotSpace rest with
          | false => rfl
          | true => exact absurd ⟨rfl, rfl, hnn⟩ h
        obtain ⟨d, r2, rfl, hd⟩ := nextNotSpace_false rest hnns
        have hd2 : d ≠ '*' := (space_facts d hd).2.1
        rw [subOpen_cons_ne '*' d r2 (by simp), openTightAt_paren,
          headSpaceOr_of_head _ _ d (by rw [subOpen_head]; rfl)]
        exact hd
      · refine openTightAt_of_head_ne '(' _ ?_
        rw [subOpen_head]
        simp [hb]
    · exact openTightAt_of_ne a _ ha

theorem closeTight_subClose : ∀ (p : Option Char) (t : List Char),
    closeTightAux p (subCloseAux p t) = true := by
  intro p t
  induction p, t using subCloseAux.induct with
  | case1 p => rfl
  | case2 p c =>
    rw [subCloseAux, closeTight_cons, closeTightAt_of_head_ne p c [] (by simp)]
    rfl
  | case3 p a b rest h ih =>
    obtain ⟨rfl, rfl, hpns⟩ := h
    rw [subClose_match p rest hpns]
    rw [closeTight_cons, closeTight_cons, closeTight_cons,
      closeTightAt_of_ne p ' ' _ (by decide),
      closeTightAt_eval (some ' ') _ (by rfl),
      closeTightAt_of_ne (some '*') ')' _ (by decide), ih]
    decide
  | case4 p a b rest h ih =>
    rw [subClose_cons_ne p a b rest h, closeTight_cons, ih, Bool.and_true]
    by_cases ha : a = '*'
    · subst ha
      rcases subClose_head (some '*') b rest with hh | hh
      · by_cases hb : b = ')'
        · subst hb
          have hpns : prevNotSpace p = false := by
            cases hpn : prevNotSpace p with
            | false => rfl
            | true => exact absurd ⟨rfl, rfl, hpn⟩ h
          obtain ⟨q, rfl, hq⟩ := prevNotSpace_false p hpns
          rw [closeTightAt_eval _ _ hh, prevSpaceOr_some]
          exact hq
        · exact closeTightAt_of_head_ne p '*' _ (by simp [hh, hb])
      · exact closeTightAt_of_head_ne p '*' _ (by simp [hh])
    · exact closeTightAt_of_ne p a _ ha

theorem openTight_subClose : ∀ (p : Option Char) (t : List Char),
    openTight t = true → openTight (subCloseAux p t) = true := by
  intro p t
  induction p, t using subCloseAux.induct with
  | case1 p => intro _; rfl
  | case2 p c => intro h; exact h
  | case3 p a b rest h ih =>
    intro hyp
    obtain ⟨rfl, rfl, hpns⟩ := h
    rw [openTight_cons, openTight_cons] at hyp
    have hrest : openTight rest = true := by
      rw [Bool.and_eq_true, Bool.and_eq_true] at hyp
      exact hyp.2.2
    rw [subClose_match p rest hpns, openTight_cons, openTight_cons, openTight_cons,
      openTightAt_of_ne ' ' _ (by decide), openTightAt_of_ne '*' _ (by decide),
      openTightAt_of_ne ')' _ (by decide), ih hrest]
    decide
  | case4 p a b rest h ih =>
    intro hyp
    rw [openTight_cons, Bool.and_eq_true] at hyp
    obtain ⟨hat, hrest⟩ := hyp
    rw [subClose_cons_ne p a b rest h, openTight_cons, ih hrest, Bool.and_true]
    by_cases ha : a = '('
    · subst ha
      by_cases hb : b = '*'
      · subst hb
        rw [openTightAt_paren] at hat
        have hex : ∃ d r2, rest = d :: r2 ∧ isSpace d = true := by
          match rest with
          | [] => rw [headSpaceOr_nil] at hat; exact absurd hat (by decide)
          | d :: r2 => rw [headSpaceOr_cons] at hat; exact ⟨d, r2, rfl, hat⟩
        obtain ⟨d, r2, rfl, hd⟩ := hex
        have hd2 := space_facts d hd
        rw [subClose_cons_ne (some '(') '*' d r2 (fun hcc => hd2.2.2 hcc.2.1),
          openTightAt_paren,
          headSpaceOr_of_head _ _ d (subClose_head_of_ne (some '*') d r2 hd2.2.1)]
        exact hd
      · refine openTightAt_of_head_ne '(' _ ?_
        rcases subClose_head (some '(') b rest with hh | hh <;> simp [hh, hb]
    · exact openTightAt_of_ne a _ ha

/-! ## Keyword matching is unchanged by the Keyword-Liner output

Inserted line feeds appear only before matched keywords, and a keyword
match examined right after a word character can never trigger, so
prefix and boundary tests of the alternation transfer between a
scanned suffix and its rewritten image. -/

theorem kwTrigger_eq_findKw (q : Char) (t : List Char) (h1 : isWordChar q = false)
    (h2 : q ≠ '\n') : kwTrigger (some q) t = findKw t := by
  simp [kwTrigger, h1, h2]

theorem kwTrigger_some (p : Option Char) (t kw : List Char) (h : kwTrigger p t = some kw) :
    ∃ q, p = some q ∧ isWordChar q = false ∧ q ≠ '\n' ∧ findKw t = some kw := by
  match p with
  | none => simp [kwTrigger] at h
  | some q =>
    simp only [kwTrigger] at h
    by_cases hc : isWordChar q = true ∨ q = '\n'
    · rw [if_pos hc] at h; cases h
    · rw [if_neg hc] at h
      push_neg at hc
      refine ⟨q, rfl, ?_, hc.2, h⟩
      cases hb : isWordChar q with
      | false => rfl
      | true => exact absurd hb hc.1

theorem boundaryAfter_cons (k c : Char) (kw2 t : List Char) :
    boundaryAfter (k :: kw2) (c :: t) = boundaryAfter kw2 t := by
  unfold boundaryAfter
  have h : (c :: t).drop (k :: kw2).length = t.drop kw2.length := by simp
  rw [h]

theorem isPrefixList_ensure (kw : List Char) :
    ∀ (q : Char) (s : List Char), (∀ x ∈ kw, isWordChar x = true) → isWordChar q = true →
      isPrefixList kw (ensureAux (some q) s) = isPrefixList kw s := by
  induction kw with
  | nil => intro q s _ _; rfl
  | cons k kw2 ih =>
    intro q s hw hq
    match s with
    | [] => rw [ensureAux_nil]
    | c :: rest =>
      have htr : kwTrigger (some q) (c :: rest) = none := by simp [kwTrigger, hq]
      rw [ensureAux_cons_none _ _ _ htr]
      simp only [isPrefixList]
      by_cases hkc : k = c
      · subst hkc
        rw [ih k rest (fun x hx => hw x (List.mem_cons_of_mem _ hx))
          (hw k (List.mem_cons_self _ _))]
      · have hf2 : (k == c) = false := by simp [hkc]
        rw [hf2]
        simp

theorem boundaryAfter_ensure (kw : List Char) :
    ∀ (q : Char) (s : List Char), (∀ x ∈ kw, isWordChar x = true) → isWordChar q = true →
      isPrefixList kw s = true →
      boundaryAfter kw (ensureAux (some q) s) = boundaryAfter kw s := by
  induction kw with
  | nil =>
    intro q s _ hq _
    simp only [boundaryAfter, List.length_nil, List.drop_zero]
    rw [ensure_head_word q s hq]
  | cons k kw2 ih =>
    intro q s hw hq hpre
    match s with
    | [] => simp [isPrefixList] at hpre
    | c :: rest =>
      have htr : kwTrigger (some q) (c :: rest) = none := by simp [kwTrigger, hq]
      rw [ensureAux_cons_none _ _ _ htr]
      simp only [isPrefixList, Bool.and_eq_true, beq_iff_eq] at hpre
      obtain ⟨rfl, hpre2⟩ := hpre
      rw [boundaryAfter_cons, boundaryAfter_cons,
        ih k rest (fun x hx => hw x (List.mem_cons_of_mem _ hx))
          (hw k (List.mem_cons_self _ _)) hpre2]

theorem firstKw_congr (t1 t2 : List Char) :
    ∀ l : List (List Char),
      (∀ kw ∈ l, (isPrefixList kw t1 && boundaryAfter kw t1) =
        (isPrefixList kw t2 && boundaryAfter kw t2)) →
      firstKw t1 l = firstKw t2 l := by
  intro l
  induction l with
  | nil => intro _; rfl
  | cons kw l2 ih =>
    intro h
    rw [firstKw, firstKw, h kw (List.mem_cons_self _ _),
      ih (fun kw2 hm => h kw2 (List.mem_cons_of_mem _ hm))]

theorem findKw_ensure (c : Char) (rest : List Char) :
    findKw (c :: ensureAux (some c) rest) = findKw (c :: rest) := by
  apply firstKw_congr
  intro kw hm
  have halpha := kw_mem_alpha kw hm
  match kw with
  | [] => rfl
  | k :: kw2 =>
    have hword : ∀ x ∈ kw2, isWordChar x = true := fun x hx =>
      isWordChar_of_alpha x (halpha x (List.mem_cons_of_mem _ hx))
    by_cases hkc : k = c
    · subst hkc
      have hkw : isWordChar k = true :=
        isWordChar_of_alpha k (halpha k (List.mem_cons_self _ _))
      simp only [isPrefixList, beq_self_eq_true, Bool.true_and, boundaryAfter_cons]
      rw [isPrefixList_ensure kw2 k rest hword hkw]
      by_cases hpre : isPrefixList kw2 rest = true
      · rw [boundaryAfter_ensure kw2 k rest hword hkw hpre]
      · have hf : isPrefixList kw2 rest = false := by
          cases hb : isPrefixList kw2 rest with
          | false => rfl
          | true => exact absurd hb hpre
        rw [hf]
        simp
    · have hf2 : (k == c) = false := by simp [hkc]
      simp only [isPrefixList, hf2]
      simp

theorem space_not_kwhead (d : Char) (h : isSpace d = true) : isKeywordHead d = false := by
  simp only [isSpace, Bool.or_eq_true, decide_eq_true_eq] at h
  rcases h with ((((h | h) | h) | h) | h) | h <;> (subst h; decide)

/-! ## The Keyword-Liner preserves tight comment spacing -/

theorem openTight_ensure : ∀ (p : Option Char) (t : List Char),
    openTight t = true → openTight (ensureAux p t) = true := by
  intro p t
  induction p, t using ensureAux.induct with
  | case1 p => intro _; rw [ensureAux_nil]; rfl
  | case2 p c rest kw htr ih =>
    intro hyp
    obtain ⟨q, rfl, hqw, hqn, hfind⟩ := kwTrigger_some _ _ _ htr
    obtain ⟨hmem, hpre, hbound⟩ := findKw_some _ _ hfind
    obtain ⟨s2, hseq⟩ := isPrefixList_exists kw _ hpre
    have hkne := kw_ne_nil kw hmem
    have hdrop : rest.drop (kw.length - 1) = s2 := drop_pref c rest kw s2 hkne hseq
    have halpha := kw_mem_alpha kw hmem
    have hnp : ∀ x ∈ kw, x ≠ '(' := fun x hx => (alpha_facts x (halpha x hx)).1
    have hs2 : openTight s2 = true := by
      rw [hseq, openTight_append_no_paren kw s2 hnp] at hyp
      exact hyp
    rw [hdrop] at ih
    rw [ensureAux_cons_some _ _ _ _ htr, hdrop, openTight_cons,
      openTightAt_of_ne '\n' _ (by decide),
      openTight_append_no_paren kw _ hnp, ih hs2]
    decide
  | case3 p c rest htr ih =>
    intro hyp
    rw [openTight_cons, Bool.and_eq_true] at hyp
    obtain ⟨hat, hrest⟩ := hyp
    rw [ensureAux_cons_none _ _ _ htr, openTight_cons, ih hrest, Bool.and_true]
    by_cases hc : c = '('
    · subst hc
      by_cases hr : rest.head? = some '*'
      · obtain ⟨w2, rfl⟩ : ∃ w2, rest = '*' :: w2 := by
          match rest, hr with
          | x :: w2, hr =>
            injection hr with hx
            subst hx
            exact ⟨w2, rfl⟩
        rw [openTightAt_paren] at hat
        obtain ⟨d, w3, rfl, hd⟩ : ∃ d w3, w2 = d :: w3 ∧ isSpace d = true := by
          match w2 with
          | [] => rw [headSpaceOr_nil] at hat; exact absurd hat (by decide)
          | d :: w3 => rw [headSpaceOr_cons] at hat; exact ⟨d, w3, rfl, hat⟩
        have htr2 : kwTrigger (some '*') (d :: w3) = none := by
          rw [kwTrigger_eq_findKw '*' _ (by decide) (by decide)]
          exact findKw_none_of_head d w3 (space_not_kwhead d hd)
        have htr1 : kwTrigger (some '(') ('*' :: d :: w3) = none := by
          rw [kwTrigger_eq_findKw '(' _ (by decide) (by decide)]
          exact findKw_none_of_head '*' _ (by decide)
        rw [ensureAux_cons_none _ _ _ htr1, openTightAt_paren,
          ensureAux_cons_none _ _ _ htr2, headSpaceOr_cons]
        exact hd
      · refine openTightAt_of_head_ne '(' _ ?_
        match rest with
        | [] => rw [ensureAux_nil]; simp
        | r1 :: r2 =>
          have hr1 : r1 ≠ '*' := by
            intro heq
            subst heq
            exact hr rfl
          rcases ensure_head (some '(') r1 r2 with hh | hh <;> rw [hh] <;> simp [hr1]
    · exact openTightAt_of_ne c _ hc

/-! ## The Keyword-Liner preserves tight close-marker spacing -/

theorem closeTight_ensure : ∀ (p : Option Char) (t : List Char),
    closeTightAux p t = true → closeTightAux p (ensureAux p t) = true := by
  intro p t
  induction p, t using ensureAux.induct with
  | case1 p => intro _; rw [ensureAux_nil]; rfl
  | case2 p c rest kw htr ih =>
    intro hyp
    obtain ⟨q, rfl, hqw, hqn, hfind⟩ := kwTrigger_some _ _ _ htr
    obtain ⟨hmem, hpre, hbound⟩ := findKw_some _ _ hfind
    obtain ⟨s2, hseq⟩ := isPrefixList_exists kw _ hpre
    have hkne := kw_ne_nil kw hmem
    have hdrop : rest.drop (kw.length - 1) = s2 := drop_pref c rest kw s2 hkne hseq
    have halpha := kw_mem_alpha kw hmem
    have hns : ∀ x ∈ kw, x ≠ '*' := fun x hx => (alpha_facts x (halpha x hx)).2.1
    have hs2 : closeTightAux (some (kwLast kw)) s2 = true := by
      rw [hseq, closeTight_append_no_star kw s2 (some q) hns,
        pushLastOpt_of_ne_nil kw _ hkne] at hyp
      exact hyp
    rw [hdrop] at ih
    rw [ensureAux_cons_some _ _ _ _ htr, hdrop, closeTight_cons,
      closeTightAt_of_ne _ '\n' _ (by decide),
      closeTight_append_no_star kw _ (some '\n') hns,
      pushLastOpt_of_ne_nil kw _ hkne, ih hs2]
    decide
  | case3 p c rest htr ih =>
    intro hyp
    rw [closeTight_cons, Bool.and_eq_true] at hyp
    obtain ⟨hat, hrest⟩ := hyp
    rw [ensureAux_cons_none _ _ _ htr, closeTight_cons, ih hrest, Bool.and_true]
    by_cases hc : c = '*'
    · subst hc
      match rest with
      | [] => rw [ensureAux_nil]; exact closeTightAt_of_head_ne p '*' [] (by simp)
      | r1 :: r2 =>
        rcases ensure_head (some '*') r1 r2 with hh | hh
        · by_cases hr1 : r1 = ')'
          · subst hr1
            rw [closeTightAt_eval p _ hh]
            rw [closeTightAt_eval p _ (by rfl)] at hat
            exact hat
          · exact closeTightAt_of_head_ne p '*' _ (by simp [hh, hr1])
        · exact closeTightAt_of_head_ne p '*' _ (by simp [hh])
    · exact closeTightAt_of_ne p c _ hc

/-! ## The Keyword-Liner establishes the keyword placement property -/

theorem kwPlaced_ensure : ∀ (p : Option Char) (t : List Char),
    kwPlacedAux p (ensureAux p t) = true := by
  intro p t
  induction p, t using ensureAux.induct with
  | case1 p => rw [ensureAux_nil]; rfl
  | case2 p c rest kw htr ih =>
    obtain ⟨q, rfl, hqw, hqn, hfind⟩ := kwTrigger_some _ _ _ htr
    obtain ⟨hmem, hpre, hbound⟩ := findKw_some _ _ hfind
    obtain ⟨s2, hseq⟩ := isPrefixList_exists kw _ hpre
    have hkne := kw_ne_nil kw hmem
    have hdrop : rest.drop (kw.length - 1) = s2 := drop_pref c rest kw s2 hkne hseq
    have halpha := kw_mem_alpha kw hmem
    have hword : ∀ x ∈ kw, isWordChar x = true := fun x hx =>
      isWordChar_of_alpha x (halpha x hx)
    rw [hdrop] at ih
    rw [ensureAux_cons_some _ _ _ _ htr, hdrop, kwPlaced_cons, Bool.and_eq_true]
    constructor
    · exact kwOkAt_of_findKw_none _ _ (findKw_none_of_head '\n' _ (by decide))
    · rw [kwPlaced_append_word kw _ (some '\n') hkne hword,
        pushLastOpt_of_ne_nil kw _ hkne, Bool.and_eq_true]
      exact ⟨kwOkAt_nl _, ih⟩
  | case3 p c rest htr ih =>
    rw [ensureAux_cons_none _ _ _ htr, kwPlaced_cons, ih, Bool.and_true]
    match p with
    | none => exact kwOkAt_none _
    | some q =>
      by_cases hqw : isWordChar q = true
      · exact kwOkAt_word q _ hqw
      · by_cases hqn : q = '\n'
        · subst hqn; exact kwOkAt_nl _
        · have hqw2 : isWordChar q = false := by
            cases hb : isWordChar q with
            | false => rfl
            | true => exact absurd hb hqw
          have hfind : findKw (c :: rest) = none := by
            rw [kwTrigger_eq_findKw q _ hqw2 hqn] at htr
            exact htr
          refine kwOkAt_of_findKw_none _ _ ?_
          rw [findKw_ensure c rest]
          exact hfind

/-! ## Line-ending normalization: auxiliary lemmas -/

theorem replaceCR_cons (c : Char) (w : List Char) :
    replaceCR (c :: w) = crChar c :: replaceCR w := by
  by_cases hc : c = '\r' <;> simp [replaceCR, crChar, hc]

theorem replaceCR_head (d : Char) (r : List Char) :
    (replaceCR (d :: r)).head? = some (crChar d) := by
  rw [replaceCR_cons]
  rfl

theorem replaceCRLF_head (d : Char) (r : List Char) :
    (replaceCRLF (d :: r)).head? = some d ∨
      (d = '\r' ∧ (replaceCRLF (d :: r)).head? = some '\n') := by
  match r with
  | [] => left; rfl
  | r1 :: r2 =>
    rw [replaceCRLF]
    split
    · rename_i h
      right
      exact ⟨h.1, rfl⟩
    · left; rfl

theorem crChar_space (d : Char) (h : isSpace d = true) : isSpace (crChar d) = true := by
  by_cases hd : d = '\r'
  · subst hd; decide
  · rwa [crChar, if_neg hd]

theorem crChar_eq_iff (d x : Char) (hx : x ≠ '\n') (hx2 : x ≠ '\r') :
    (crChar d = x) ↔ (d = x) := by
  constructor
  · intro h
    by_cases hd : d = '\r'
    · subst hd
      rw [crChar, if_pos rfl] at h
      exact absurd h.symm hx
    · rwa [crChar, if_neg hd] at h
  · intro h
    subst h
    rw [crChar, if_neg hx2]

theorem word_ne_cr (q : Char) (h : isWordChar q = true) : q ≠ '\r' := by
  intro heq
  subst heq
  exact absurd h (by decide)

theorem boundaryAfter_nil_head (t : List Char) :
    boundaryAfter [] t = (match t.head? with
      | none => true
      | some d => !isWordChar d) := rfl

/-! ## Keyword matching is unchanged by line-ending normalization

Trigger keywords contain neither CR nor LF, so the prefix and trailing
boundary tests transfer across both replacement steps. -/

theorem isPrefixList_replaceCRLF :
    ∀ (w kw : List Char), (∀ x ∈ kw, x ≠ '\r' ∧ x ≠ '\n') →
      isPrefixList kw (replaceCRLF w) = isPrefixList kw w := by
  intro w
  induction w using replaceCRLF.induct with
  | case1 =>
    intro kw _
    rfl
  | case2 c =>
    intro kw _
    rfl
  | case3 a b rest h ih =>
    intro kw hkw
    obtain ⟨rfl, rfl⟩ := h
    rw [replaceCRLF_match]
    match kw with
    | [] => rfl
    | k :: kw2 =>
      have hk := hkw k (List.mem_cons_self _ _)
      have h1 : (k == '\n') = false := by simp [hk.2]
      have h2 : (k == '\r') = false := by simp [hk.1]
      simp only [isPrefixList, h1, h2, Bool.false_and]
  | case4 a b rest h ih =>
    intro kw hkw
    rw [replaceCRLF_cons_ne a b rest h]
    match kw with
    | [] => rfl
    | k :: kw2 =>
      simp only [isPrefixList]
      rw [ih kw2 (fun x hx => hkw x (List.mem_cons_of_mem _ hx))]

theorem boundaryAfter_replaceCRLF :
    ∀ (kw w : List Char), (∀ x ∈ kw, x ≠ '\r' ∧ x ≠ '\n') →
      isPrefixList kw w = true →
      boundaryAfter kw (replaceCRLF w) = boundaryAfter kw w := by
  intro kw
  induction kw with
  | nil =>
    intro w _ _
    rw [boundaryAfter_nil_head, boundaryAfter_nil_head]
    match w with
    | [] => rfl
    | d :: r =>
      rcases replaceCRLF_head d r with hh | ⟨rfl, hh⟩
      · rw [hh]
        rfl
      · rw [hh]
        simp only [List.head?_cons]
        decide
  | cons k kw2 ih =>
    intro w hkw hpre
    match w with
    | [] => simp [isPrefixList] at hpre
    | c :: w2 =>
      simp only [isPrefixList, Bool.and_eq_true, beq_iff_eq] at hpre
      obtain ⟨rfl, hpre2⟩ := hpre
      rw [replaceCRLF_cons_of_ne k w2 (hkw k (List.mem_cons_self _ _)).1,
        boundaryAfter_cons, boundaryAfter_cons,
        ih w2 (fun x hx => hkw x (List.mem_cons_of_mem _ hx)) hpre2]

theorem findKw_replaceCRLF (c : Char) (w : List Char) :
    findKw (c :: replaceCRLF w) = findKw (c :: w) := by
  apply firstKw_congr
  intro kw hm
  have halpha := kw_mem_alpha kw hm
  have hrn : ∀ x ∈ kw, x ≠ '\r' ∧ x ≠ '\n' := fun x hx =>
    ⟨(alpha_facts x (halpha x hx)).2.2.2.1, (alpha_facts x (halpha x hx)).2.2.2.2.1⟩
  match kw with
  | [] => rfl
  | k :: kw2 =>
    have hrn2 : ∀ x ∈ kw2, x ≠ '\r' ∧ x ≠ '\n' := fun x hx =>
      hrn x (List.mem_cons_of_mem _ hx)
    by_cases hkc : k = c
    · subst hkc
      simp only [isPrefixList, beq_self_eq_true, Bool.true_and, boundaryAfter_cons]
      rw [isPrefixList_replaceCRLF w kw2 hrn2]
      by_cases hpre : isPrefixList kw2 w = true
      · rw [boundaryAfter_replaceCRLF kw2 w hrn2 hpre]
      · have hf : isPrefixList kw2 w = false := by
          cases hb : isPrefixList kw2 w with
          | false => rfl
          | true => exact absurd hb hpre
        rw [hf]
        simp
    · have hf2 : (k == c) = false := by simp [hkc]
      simp only [isPrefixList, hf2]
      simp

theorem isPrefixList_replaceCR :
    ∀ (kw w : List Char), (∀ x ∈ kw, x ≠ '\r' ∧ x ≠ '\n') →
      isPrefixList kw (replaceCR w) = isPrefixList kw w := by
  intro kw
  induction kw with
  | nil => intro w _; rfl
  | cons k kw2 ih =>
    intro w hkw
    match w with
    | [] => rfl
    | c :: w2 =>
      rw [replaceCR_cons]
      simp only [isPrefixList]
      have hk := hkw k (List.mem_cons_self _ _)
      have hkc : (k == crChar c) = (k == c) := by
        by_cases hc : c = '\r'
        · subst hc
          have h1 : (k == '\n') = false := by simp [hk.2]
          have h2 : (k == '\r') = false := by simp [hk.1]
          rw [crChar, if_pos rfl, h1, h2]
        · rw [crChar, if_neg hc]
      rw [hkc, ih w2 (fun x hx => hkw x (List.mem_cons_of_mem _ hx))]

theorem boundaryAfter_replaceCR :
    ∀ (kw w : List Char), (∀ x ∈ kw, x ≠ '\r' ∧ x ≠ '\n') →
      isPrefixList kw w = true →
      boundaryAfter kw (replaceCR w) = boundaryAfter kw w := by
  intro kw
  induction kw with
  | nil =>
    intro w _ _
    rw [boundaryAfter_nil_head, boundaryAfter_nil_head]
    match w with
    | [] => rfl
    | d :: r =>
      rw [replaceCR_head]
      by_cases hd : d = '\r'
      · subst hd
        rw [crChar, if_pos rfl]
        simp only [List.head?_cons]
        decide
      · rw [crChar, if_neg hd]
        rfl
  | cons k kw2 ih =>
    intro w hkw hpre
    match w with
    | [] => simp [isPrefixList] at hpre
    | c :: w2 =>
      simp only [isPrefixList, Bool.and_eq_true, beq_iff_eq] at hpre
      obtain ⟨rfl, hpre2⟩ := hpre
      have hk := hkw k (List.mem_cons_self _ _)
      rw [replaceCR_cons]
      have hcr : crChar k = k := by rw [crChar, if_neg hk.1]
      rw [hcr, boundaryAfter_cons, boundaryAfter_cons,
        ih w2 (fun x hx => hkw x (List.mem_cons_of_mem _ hx)) hpre2]

theorem findKw_replaceCR (c : Char) (w : List Char) :
    findKw (c :: replaceCR w) = findKw (c :: w) := by
  apply firstKw_congr
  intro kw hm
  have halpha := kw_mem_alpha kw hm
  have hrn : ∀ x ∈ kw, x ≠ '\r' ∧ x ≠ '\n' := fun x hx =>
    ⟨(alpha_facts x (halpha x hx)).2.2.2.1, (alpha_facts x (halpha x hx)).2.2.2.2.1⟩
  match kw with
  | [] => rfl
  | k :: kw2 =>
    have hrn2 : ∀ x ∈ kw2, x ≠ '\r' ∧ x ≠ '\n' := fun x hx =>
      hrn x (List.mem_cons_of_mem _ hx)
    by_cases hkc : k = c
    · subst hkc
      simp only [isPrefixList, beq_self_eq_true, Bool.true_and, boundaryAfter_cons]
      rw [isPrefixList_replaceCR kw2 w hrn2]
      by_cases hpre : isPrefixList kw2 w = true
      · rw [boundaryAfter_replaceCR kw2 w hrn2 hpre]
      · have hf : isPrefixList kw2 w = false := by
          cases hb : isPrefixList kw2 w with
          | false => rfl
          | true => exact absurd hb hpre
        rw [hf]
        simp
    · have hf2 : (k == c) = false := by simp [hkc]
      simp only [isPrefixList, hf2]
      simp

/-! ## Normalization preserves the established postconditions -/

theorem openTight_replaceCRLF : ∀ t : List Char,
    openTight t = true → openTight (replaceCRLF t) = true := by
  intro t
  induction t using replaceCRLF.induct with
  | case1 => intro _; rfl
  | case2 c => intro h; exact h
  | case3 a b rest h ih =>
    obtain ⟨rfl, rfl⟩ := h
    intro hyp
    rw [openTight_cons, openTight_cons, Bool.and_eq_true, Bool.and_eq_true] at hyp
    rw [replaceCRLF_match, openTight_cons, openTightAt_of_ne '\n' _ (by decide),
      ih hyp.2.2]
    rfl
  | case4 a b rest h ih =>
    intro hyp
    rw [openTight_cons, Bool.and_eq_true] at hyp
    obtain ⟨hat, hrest⟩ := hyp
    rw [replaceCRLF_cons_ne a b rest h, openTight_cons, ih hrest, Bool.and_true]
    by_cases ha : a = '('
    · subst ha
      by_cases hb : b = '*'
      · subst hb
        rw [openTightAt_paren] at hat
        obtain ⟨d, r2, rfl, hd⟩ : ∃ d r2, rest = d :: r2 ∧ isSpace d = true := by
          match rest with
          | [] => rw [headSpaceOr_nil] at hat; exact absurd hat (by decide)
          | d :: r2 => rw [headSpaceOr_cons] at hat; exact ⟨d, r2, rfl, hat⟩
        rw [replaceCRLF_cons_of_ne '*' _ (by decide), openTightAt_paren]
        rcases replaceCRLF_head d r2 with hh | ⟨rfl, hh⟩
        · rw [headSpaceOr_of_head _ _ d hh]
          exact hd
        · rw [headSpaceOr_of_head _ _ '\n' hh]
          decide
      · refine openTightAt_of_head_ne '(' _ ?_
        rcases replaceCRLF_head b rest with hh | ⟨rfl, hh⟩
        · simp [hh, hb]
        · simp [hh]
    · exact openTightAt_of_ne a _ ha

theorem closeTight_replaceCRLF : ∀ t : List Char, ∀ p,
    closeTightAux p t = true → closeTightAux p (replaceCRLF t) = true := by
  intro t
  induction t using replaceCRLF.induct with
  | case1 => intro p _; rfl
  | case2 c => intro p h; exact h
  | case3 a b rest h ih =>
    obtain ⟨rfl, rfl⟩ := h
    intro p hyp
    rw [closeTight_cons, closeTight_cons, Bool.and_eq_true, Bool.and_eq_true] at hyp
    rw [replaceCRLF_match, closeTight_cons, closeTightAt_of_ne p '\n' _ (by decide),
      ih (some '\n') hyp.2.2]
    rfl
  | case4 a b rest h ih =>
    intro p hyp
    rw [closeTight_cons, Bool.and_eq_true] at hyp
    obtain ⟨hat, hrest⟩ := hyp
    rw [replaceCRLF_cons_ne a b rest h, closeTight_cons, ih (some a) hrest, Bool.and_true]
    by_cases ha : a = '*'
    · subst ha
      rcases replaceCRLF_head b rest with hh | ⟨rfl, hh⟩
      · by_cases hb : b = ')'
        · subst hb
          rw [closeTightAt_eval p _ hh]
          rw [closeTightAt_eval p _ (by rfl)] at hat
          exact hat
        · exact closeTightAt_of_head_ne p '*' _ (by simp [hh, hb])
      · exact closeTightAt_of_head_ne p '*' _ (by simp [hh])
    · exact closeTightAt_of_ne p a _ ha

theorem kwPlaced_replaceCRLF : ∀ t : List Char, ∀ p,
    kwPlacedAux p t = true → kwPlacedAux p (replaceCRLF t) = true := by
  intro t
  induction t using replaceCRLF.induct with
  | case1 => intro p _; rfl
  | case2 c => intro p h; exact h
  | case3 a b rest h ih =>
    obtain ⟨rfl, rfl⟩ := h
    intro p hyp
    rw [kwPlaced_cons, kwPlaced_cons, Bool.and_eq_true, Bool.and_eq_true] at hyp
    rw [replaceCRLF_match, kwPlaced_cons, Bool.and_eq_true]
    exact ⟨kwOkAt_of_findKw_none _ _ (findKw_none_of_head '\n' _ (by decide)),
      ih (some '\n') hyp.2.2⟩
  | case4 a b rest h ih =>
    intro p hyp
    rw [kwPlaced_cons, Bool.and_eq_true] at hyp
    obtain ⟨hat, hrest⟩ := hyp
    rw [replaceCRLF_cons_ne a b rest h, kwPlaced_cons, ih (some a) hrest, Bool.and_true]
    match p with
    | none => exact kwOkAt_none _
    | some q =>
      by_cases hqw : isWordChar q = true
      · exact kwOkAt_word q _ hqw
      · by_cases hqn : q = '\n'
        · subst hqn; exact kwOkAt_nl _
        · have hqw2 : isWordChar q = false := by
            cases hb : isWordChar q with
            | false => rfl
            | true => exact absurd hb hqw
          have hfind := kwOkAt_forces q _ hat hqw2 hqn
          refine kwOkAt_of_findKw_none _ _ ?_
          rw [findKw_replaceCRLF a (b :: rest)]
          exact hfind

theorem openTight_replaceCR : ∀ t : List Char,
    openTight t = true → openTight (replaceCR t) = true := by
  intro t
  induction t with
  | nil => intro _; rfl
  | cons c w ih =>
    intro hyp
    rw [openTight_cons, Bool.and_eq_true] at hyp
    obtain ⟨hat, hrest⟩ := hyp
    rw [replaceCR_cons, openTight_cons, ih hrest, Bool.and_true]
    by_cases hc : c = '('
    · subst hc
      rw [show crChar '(' = '(' from rfl]
      by_cases hw : w.head? = some '*'
      · obtain ⟨w2, rfl⟩ : ∃ w2, w = '*' :: w2 := by
          match w, hw with
          | x :: w2, hw =>
            injection hw with hx
            subst hx
            exact ⟨w2, rfl⟩
        rw [openTightAt_paren] at hat
        obtain ⟨d, w3, rfl, hd⟩ : ∃ d w3, w2 = d :: w3 ∧ isSpace d = true := by
          match w2 with
          | [] => rw [headSpaceOr_nil] at hat; exact absurd hat (by decide)
          | d :: w3 => rw [headSpaceOr_cons] at hat; exact ⟨d, w3, rfl, hat⟩
        rw [replaceCR_cons, show crChar '*' = '*' from rfl, openTightAt_paren,
          headSpaceOr_of_head _ _ (crChar d) (replaceCR_head d w3)]
        exact crChar_space d hd
      · refine openTightAt_of_head_ne '(' _ ?_
        match w with
        | [] => simp [replaceCR]
        | x :: w2 =>
          rw [replaceCR_head]
          have hx : x ≠ '*' := by
            intro heq
            subst heq
            exact hw rfl
          have : crChar x ≠ '*' := by
            intro heq
            exact hx ((crChar_eq_iff x '*' (by decide) (by decide)).mp heq)
          simp [this]
    · refine openTightAt_of_ne (crChar c) _ ?_
      intro heq
      exact hc ((crChar_eq_iff c '(' (by decide) (by decide)).mp heq)

theorem closeTight_replaceCR : ∀ (t : List Char) (p : Option Char),
    closeTightAux p t = true → closeTightAux (Option.map crChar p) (replaceCR t) = true := by
  intro t
  induction t with
  | nil => intro p _; rfl
  | cons c w ih =>
    intro p hyp
    rw [closeTight_cons, Bool.and_eq_true] at hyp
    obtain ⟨hat, hrest⟩ := hyp
    rw [replaceCR_cons, closeTight_cons]
    have h2 := ih (some c) hrest
    rw [show Option.map crChar (some c) = some (crChar c) from rfl] at h2
    rw [h2, Bool.and_true]
    by_cases hc : c = '*'
    · subst hc
      rw [show crChar '*' = '*' from rfl]
      match w with
      | [] => exact closeTightAt_of_head_ne _ '*' _ (by simp [replaceCR])
      | x :: w2 =>
        by_cases hx : x = ')'
        · subst hx
          rw [closeTightAt_eval _ _ (by rw [replaceCR_head]; rfl)]
          rw [closeTightAt_eval p _ (by rfl)] at hat
          obtain ⟨q, rfl, hq⟩ : ∃ q, p = some q ∧ isSpace q = true := by
            match p, hat with
            | some q, hat => exact ⟨q, rfl, hat⟩
          rw [show Option.map crChar (some q) = some (crChar q) from rfl,
            prevSpaceOr_some]
          exact crChar_space q hq
        · refine closeTightAt_of_head_ne _ '*' _ ?_
          rw [replaceCR_head]
          have : crChar x ≠ ')' := by
            intro heq
            exact hx ((crChar_eq_iff x ')' (by decide) (by decide)).mp heq)
          simp [this]
    · refine closeTightAt_of_ne _ (crChar c) _ ?_
      intro heq
      exact hc ((crChar_eq_iff c '*' (by decide) (by decide)).mp heq)

theorem kwPlaced_replaceCR : ∀ (t : List Char) (p : Option Char),
    kwPlacedAux p t = true → kwPlacedAux (Option.map crChar p) (replaceCR t) = true := by
  intro t
  induction t with
  | nil => intro p _; rfl
  | cons c w ih =>
    intro p hyp
    rw [kwPlaced_cons, Bool.and_eq_true] at hyp
    obtain ⟨hat, hrest⟩ := hyp
    rw [replaceCR_cons, kwPlaced_cons]
    have h2 := ih (some c) hrest
    rw [show Option.map crChar (some c) = some (crChar c) from rfl] at h2
    rw [h2, Bool.and_true]
    match p with
    | none => exact kwOkAt_none _
    | some q =>
      rw [show Option.map crChar (some q) = some (crChar q) from rfl]
      by_cases hqr : q = '\r'
      · subst hqr
        rw [show crChar '\r' = '\n' from rfl]
        exact kwOkAt_nl _
      · rw [crChar, if_neg hqr]
        by_cases hqw : isWordChar q = true
        · exact kwOkAt_word q _ hqw
        · by_cases hqn : q = '\n'
          · subst hqn; exact kwOkAt_nl _
          · have hqw2 : isWordChar q = false := by
              cases hb : isWordChar q with
              | false => rfl
              | true => exact absurd hb hqw
            have hfind := kwOkAt_forces q _ hat hqw2 hqn
            refine kwOkAt_of_findKw_none _ _ ?_
            by_cases hcr : c = '\r'
            · subst hcr
              rw [show crChar '\r' = '\n' from rfl]
              exact findKw_none_of_head '\n' _ (by decide)
            · rw [crChar, if_neg hcr, findKw_replaceCR c w]
              exact hfind

theorem noCR_cons (c : Char) (w : List Char) :
    noCR (c :: w) = ((c != '\r') && noCR w) := rfl

theorem noCR_replaceCR : ∀ t : List Char, noCR (replaceCR t) = true := by
  intro t
  induction t with
  | nil => rfl
  | cons c w ih =>
    rw [replaceCR_cons, noCR_cons, ih, Bool.and_true]
    by_cases hc : c = '\r'
    · subst hc; decide
    · rw [crChar, if_neg hc]
      simp [hc]

/-! ## Each pass is the identity on text satisfying its postcondition -/

theorem subOpen_id : ∀ t : List Char, openTight t = true → subOpen t = t := by
  intro t
  induction t using subOpen.induct with
  | case1 => intro _; rfl
  | case2 c => intro _; rfl
  | case3 a b rest h ih =>
    intro hyp
    obtain ⟨rfl, rfl, hnns⟩ := h
    exfalso
    rw [openTight_cons, Bool.and_eq_true] at hyp
    have hat := hyp.1
    rw [openTightAt_paren] at hat
    match rest, hnns, hat with
    | d :: r2, hnns, hat =>
      rw [headSpaceOr_cons] at hat
      simp only [nextNotSpace, hat] at hnns
      exact absurd hnns (by decide)
    | [], hnns, hat =>
      rw [headSpaceOr_nil] at hat
      exact absurd hat (by decide)
  | case4 a b rest h ih =>
    intro hyp
    rw [openTight_cons, Bool.and_eq_true] at hyp
    rw [subOpen_cons_ne a b rest h, ih hyp.2]

theorem subClose_id : ∀ (p : Option Char) (t : List Char),
    closeTightAux p t = true → subCloseAux p t = t := by
  intro p t
  induction p, t using subCloseAux.induct with
  | case1 p => intro _; rfl
  | case2 p c => intro _; rfl
  | case3 p a b rest h ih =>
    intro hyp
    obtain ⟨rfl, rfl, hpns⟩ := h
    exfalso
    rw [closeTight_cons, Bool.and_eq_true] at hyp
    have hat := hyp.1
    rw [closeTightAt_eval p _ (by rfl)] at hat
    match p, hpns, hat with
    | some q, hpns, hat =>
      rw [prevSpaceOr_some] at hat
      simp only [prevNotSpace, hat] at hpns
      exact absurd hpns (by decide)
    | none, hpns, hat =>
      rw [prevSpaceOr_none] at hat
      exact absurd hat (by decide)
  | case4 p a b rest h ih =>
    intro hyp
    rw [closeTight_cons, Bool.and_eq_true] at hyp
    rw [subClose_cons_ne p a b rest h, ih hyp.2]

theorem ensure_id : ∀ (p : Option Char) (t : List Char),
    kwPlacedAux p t = true → ensureAux p t = t := by
  intro p t
  induction p, t using ensureAux.induct with
  | case1 p => intro _; rw [ensureAux_nil]
  | case2 p c rest kw htr ih =>
    intro hyp
    exfalso
    obtain ⟨q, rfl, hqw, hqn, hfind⟩ := kwTrigger_some _ _ _ htr
    rw [kwPlaced_cons, Bool.and_eq_true] at hyp
    have := kwOkAt_forces q _ hyp.1 hqw hqn
    rw [this] at hfind
    cases hfind
  | case3 p c rest htr ih =>
    intro hyp
    rw [kwPlaced_cons, Bool.and_eq_true] at hyp
    rw [ensureAux_cons_none _ _ _ htr, ih hyp.2]

theorem replaceCRLF_id : ∀ t : List Char, noCR t = true → replaceCRLF t = t := by
  intro t
  induction t using replaceCRLF.induct with
  | case1 => intro _; rfl
  | case2 c => intro _; rfl
  | case3 a b rest h ih =>
    intro hyp
    obtain ⟨rfl, rfl⟩ := h
    rw [noCR_cons] at hyp
    simp at hyp
  | case4 a b rest h ih =>
    intro hyp
    rw [noCR_cons, Bool.and_eq_true] at hyp
    rw [replaceCRLF_cons_ne a b rest h, ih hyp.2]

theorem replaceCR_id : ∀ t : List Char, noCR t = true → replaceCR t = t := by
  intro t
  induction t with
  | nil => intro _; rfl
  | cons c w ih =>
    intro hyp
    rw [noCR_cons, Bool.and_eq_true] at hyp
    have hc : c ≠ '\r' := by
      intro heq
      subst heq
      exact absurd hyp.1 (by decide)
    rw [replaceCR_cons_of_ne c w hc, ih hyp.2]

/-! ## Pipeline postconditions and idempotence -/

theorem pipeline_openTight (t : List Char) : openTight (format_coq_code t) = true :=
  openTight_replaceCR _ (openTight_replaceCRLF _ (openTight_ensure none _
    (openTight_subClose none _ (openTight_subOpen t))))

theorem pipeline_closeTight (t : List Char) :
    closeTightAux none (format_coq_code t) = true :=
  closeTight_replaceCR _ none (closeTight_replaceCRLF _ none (closeTight_ensure none _
    (closeTight_subClose none (subOpen t))))

theorem pipeline_kwPlaced (t : List Char) :
    kwPlacedAux none (format_coq_code t) = true :=
  kwPlaced_replaceCR _ none (kwPlaced_replaceCRLF _ none (kwPlaced_ensure none _))

theorem pipeline_noCR (t : List Char) : noCR (format_coq_code t) = true :=
  noCR_replaceCR _

theorem pipeline_fixed (y : List Char) (h1 : openTight y = true)
    (h2 : closeTightAux none y = true) (h3 : kwPlacedAux none y = true)
    (h4 : noCR y = true) : format_coq_code y = y := by
  show replaceCR (replaceCRLF (ensureAux none (subCloseAux none (subOpen y)))) = y
  rw [subOpen_id _ h1, subClose_id none _ h2, ensure_id none _ h3,
    replaceCRLF_id _ h4, replaceCR_id _ h4]

/-- C1: the pipeline is idempotent: for every input string x,
format_coq_code (format_coq_code x) equals format_coq_code x. -/
theorem c1_pipeline_idempotent (t : List Char) :
    format_coq_code (format_coq_code t) = format_coq_code t :=
  pipeline_fixed (format_coq_code t) (pipeline_openTight t) (pipeline_closeTight t)
    (pipeline_kwPlaced t) (pipeline_noCR t)

theorem headSpaceOr_mono (w : List Char) (h : headSpaceOr false w = true) :
    headSpaceOr true w = true := by
  match w with
  | [] => rfl
  | d :: r => exact h

theorem openTight_imp_spaced : ∀ t : List Char, openTight t = true → openSpaced t = true := by
  intro t
  induction t with
  | nil => intro _; rfl
  | cons c w ih =>
    intro hyp
    rw [openTight_cons, Bool.and_eq_true] at hyp
    rw [openSpaced_cons, ih hyp.2, Bool.and_true]
    have hat := hyp.1
    unfold openTightAt at hat
    unfold openOkAt
    split
    · rename_i hc
      rw [if_pos hc] at hat
      exact headSpaceOr_mono _ hat
    · rfl

theorem prevSpaceOr_mono (p : Option Char) (h : prevSpaceOr false p = true) :
    prevSpaceOr true p = true := by
  match p with
  | none => rfl
  | some q => exact h

theorem closeTight_imp_spaced : ∀ (t : List Char) (p : Option Char),
    closeTightAux p t = true → closeSpacedAux p t = true := by
  intro t
  induction t with
  | nil => intro p _; rfl
  | cons c w ih =>
    intro p hyp
    rw [closeTight_cons, Bool.and_eq_true] at hyp
    rw [closeSpaced_cons, ih (some c) hyp.2, Bool.and_true]
    have hat := hyp.1
    unfold closeTightAt at hat
    unfold closeOkAt
    split
    · rename_i hc
      rw [if_pos hc] at hat
      exact prevSpaceOr_mono _ hat
    · rfl

/-- C3: comment-spacing postcondition: in the output of format_coq_code,
every occurrence of the open-comment marker is immediately followed by a
whitespace character or is at the end of the text, and every occurrence
of the close-comment marker is immediately preceded by a whitespace
character or is at the start of the text. -/
theorem c3_comment_spacing_postcondition (t : List Char) :
    openSpaced (format_coq_code t) = true ∧
      closeSpacedAux none (format_coq_code t) = true :=
  ⟨openTight_imp_spaced _ (pipeline_openTight t),
    closeTight_imp_spaced _ none (pipeline_closeTight t)⟩

/-- C4: keyword-placement postcondition: every whole-word occurrence of a
trigger keyword in the output of format_coq_code (a position where the
keyword alternation matches and whose preceding character, if any, is a
non-word character) is at the start of the document or immediately
preceded by a line-feed character. -/
theorem c4_keyword_placement_postcondition (t : List Char) :
    kwPlacedAux none (format_coq_code t) = true :=
  pipeline_kwPlaced t

/-- C7: line-ending normalization: the output of format_coq_code contains
no carriage-return character; the normalization (CR LF to LF, then bare
CR to LF) is the last step of the pipeline, applied after both rewrite
passes. -/
theorem c7_no_carriage_returns (t : List Char) :
    noCR (format_coq_code t) = true ∧
      format_coq_code t =
        replaceCR (replaceCRLF (ensure_newline_before_keywords (format_comment_spaces t))) :=
  ⟨noCR_replaceCR _, rfl⟩

/-! ## The pipeline only inserts or rewrites whitespace -/

theorem stripWS_cons_space (c : Char) (w : List Char) (h : isSpace c = true) :
    stripWS (c :: w) = stripWS w := by
  simp [stripWS, h]

theorem stripWS_cons_keep (c : Char) (w : List Char) (h : isSpace c = false) :
    stripWS (c :: w) = c :: stripWS w := by
  simp [stripWS, h]

theorem stripWS_append : ∀ l s : List Char, stripWS (l ++ s) = stripWS l ++ stripWS s := by
  intro l s
  induction l with
  | nil => rfl
  | cons c l2 ih =>
    by_cases hc : isSpace c = true
    · rw [List.cons_append, stripWS_cons_space c _ hc, stripWS_cons_space c _ hc, ih]
    · have hc2 : isSpace c = false := by
        cases hb : isSpace c with
        | false => rfl
        | true => exact absurd hb hc
      rw [List.cons_append, stripWS_cons_keep c _ hc2, stripWS_cons_keep c _ hc2, ih,
        List.cons_append]

theorem stripWS_subOpen : ∀ t : List Char, stripWS (subOpen t) = stripWS t := by
  intro t
  induction t using subOpen.induct with
  | case1 => rfl
  | case2 c => rfl
  | case3 a b rest h ih =>
    obtain ⟨rfl, rfl, hnns⟩ := h
    rw [subOpen_match rest hnns,
      stripWS_cons_keep '(' _ (by decide), stripWS_cons_keep '*' _ (by decide),
      stripWS_cons_space ' ' _ (by decide), ih,
      stripWS_cons_keep '(' _ (by decide), stripWS_cons_keep '*' _ (by decide)]
  | case4 a b rest h ih =>
    rw [subOpen_cons_ne a b rest h]
    by_cases ha : isSpace a = true
    · rw [stripWS_cons_space a _ ha, stripWS_cons_space a _ ha, ih]
    · have ha2 : isSpace a = false := by
        cases hb : isSpace a with
        | false => rfl
        | true => exact absurd hb ha
      rw [stripWS_cons_keep a _ ha2, stripWS_cons_keep a _ ha2, ih]

theorem stripWS_subClose : ∀ (p : Option Char) (t : List Char),
    stripWS (subCloseAux p t) = stripWS t := by
  intro p t
  induction p, t using subCloseAux.induct with
  | case1 p => rfl
  | case2 p c => rfl
  | case3 p a b rest h ih =>
    obtain ⟨rfl, rfl, hpns⟩ := h
    rw [subClose_match p rest hpns,
      stripWS_cons_space ' ' _ (by decide), stripWS_cons_keep '*' _ (by decide),
      stripWS_cons_keep ')' _ (by decide), ih,
      stripWS_cons_keep '*' _ (by decide), stripWS_cons_keep ')' _ (by decide)]
  | case4 p a b rest h ih =>
    rw [subClose_cons_ne p a b rest h]
    by_cases ha : isSpace a = true
    · rw [stripWS_cons_space a _ ha, stripWS_cons_space a _ ha, ih]
    · have ha2 : isSpace a = false := by
        cases hb : isSpace a with
        | false => rfl
        | true => exact absurd hb ha
      rw [stripWS_cons_keep a _ ha2, stripWS_cons_keep a _ ha2, ih]

theorem stripWS_ensure : ∀ (p : Option Char) (t : List Char),
    stripWS (ensureAux p t) = stripWS t := by
  intro p t
  induction p, t using ensureAux.induct with
  | case1 p => rw [ensureAux_nil]
  | case2 p c rest kw htr ih =>
    obtain ⟨q, rfl, hqw, hqn, hfind⟩ := kwTrigger_some _ _ _ htr
    obtain ⟨hmem, hpre, hbound⟩ := findKw_some _ _ hfind
    obtain ⟨s2, hseq⟩ := isPrefixList_exists kw _ hpre
    have hkne := kw_ne_nil kw hmem
    have hdrop : rest.drop (kw.length - 1) = s2 := drop_pref c rest kw s2 hkne hseq
    rw [hdrop] at ih
    rw [ensureAux_cons_some _ _ _ _ htr, hdrop,
      stripWS_cons_space '\n' _ (by decide), stripWS_append, ih, hseq, stripWS_append]
  | case3 p c rest htr ih =>
    rw [ensureAux_cons_none _ _ _ htr]
    by_cases hc : isSpace c = true
    · rw [stripWS_cons_space c _ hc, stripWS_cons_space c _ hc, ih]
    · have hc2 : isSpace c = false := by
        cases hb : isSpace c with
        | false => rfl
        | true => exact absurd hb hc
      rw [stripWS_cons_keep c _ hc2, stripWS_cons_keep c _ hc2, ih]

theorem stripWS_replaceCRLF : ∀ t : List Char, stripWS (replaceCRLF t) = stripWS t := by
  intro t
  induction t using replaceCRLF.induct with
  | case1 => rfl
  | case2 c => rfl
  | case3 a b rest h ih =>
    obtain ⟨rfl, rfl⟩ := h
    rw [replaceCRLF_match, stripWS_cons_space '\n' _ (by decide), ih,
      stripWS_cons_space '\r' _ (by decide), stripWS_cons_space '\n' _ (by decide)]
  | case4 a b rest h ih =>
    rw [replaceCRLF_cons_ne a b rest h]
    by_cases ha : isSpace a = true
    · rw [stripWS_cons_space a _ ha, stripWS_cons_space a _ ha, ih]
    · have ha2 : isSpace a = false := by
        cases hb : isSpace a with
        | false => rfl
        | true => exact absurd hb ha
      rw [stripWS_cons_keep a _ ha2, stripWS_cons_keep a _ ha2, ih]

theorem stripWS_replaceCR : ∀ t : List Char, stripWS (replaceCR t) = stripWS t := by
  intro t
  induction t with
  | nil => rfl
  | cons c w ih =>
    rw [replaceCR_cons]
    by_cases hc : c = '\r'
    · subst hc
      rw [show crChar '\r' = '\n' from rfl, stripWS_cons_space '\n' _ (by decide), ih,
        stripWS_cons_space '\r' _ (by decide)]
    · rw [crChar, if_neg hc]
      by_cases ha : isSpace c = true
      · rw [stripWS_cons_space c _ ha, stripWS_cons_space c _ ha, ih]
      · have ha2 : isSpace c = false := by
          cases hb : isSpace c with
          | false => rfl
          | true => exact absurd hb ha
        rw [stripWS_cons_keep c _ ha2, stripWS_cons_keep c _ ha2, ih]

/-- C10: the pipeline preserves the sequence of non-whitespace
characters: erasing all whitespace characters from the output of
format_coq_code yields exactly the string obtained by erasing all
whitespace characters from the input. -/
theorem c10_nonwhitespace_preserved (t : List Char) :
    stripWS (format_coq_code t) = stripWS t := by
  show stripWS (replaceCR (replaceCRLF (ensureAux none (subCloseAux none (subOpen t))))) =
    stripWS t
  rw [stripWS_replaceCR, stripWS_replaceCRLF, stripWS_ensure, stripWS_subClose,
    stripWS_subOpen]

/-! ## Keyword-Liner identity cases and concrete behaviour -/

/-- C5: the Keyword-Liner rewrites a whole-word trigger-keyword
occurrence only if it is not already the first token of its line,
per occurrence and in every input: at the start of the document the
scan copies the character with no insertion, and likewise at any
position immediately preceded by a line feed; consequently a text whose
whole-word keyword occurrences all sit at line starts is left
unchanged, the whole pipeline maps the characters of "Lemma foo." to
themselves, and in "Lemma x. Qed." the line-start occurrence of Lemma
stays put while only the mid-line occurrence of Qed is moved. -/
theorem c5_rewrite_only_off_line_start :
    (∀ (c : Char) (w : List Char),
        ensureAux none (c :: w) = c :: ensureAux (some c) w) ∧
      (∀ (c : Char) (w : List Char),
        ensureAux (some '\n') (c :: w) = c :: ensureAux (some c) w) ∧
      (∀ t : List Char, kwPlacedAux none t = true →
        ensure_newline_before_keywords t = t) ∧
      format_coq_code "Lemma foo.".toList = "Lemma foo.".toList ∧
      ensure_newline_before_keywords "Lemma x. Qed.".toList =
        "Lemma x. \nQed.".toList := by
  refine ⟨?_, ?_, ?_, ?_, ?_⟩
  · intro c w
    exact ensureAux_cons_none _ _ _ rfl
  · intro c w
    exact ensureAux_cons_none _ _ _ (by simp [kwTrigger])
  · intro t h
    exact ensure_id none t h
  · show replaceCR (replaceCRLF (ensureAux none
      (subCloseAux none (subOpen "Lemma foo.".toList)))) = "Lemma foo.".toList
    have h1 : subCloseAux none (subOpen "Lemma foo.".toList) = "Lemma foo.".toList := by
      decide
    rw [h1, ensure_id none _ (by decide)]
    decide
  · show ensureAux none "Lemma x. Qed.".toList = "Lemma x. \nQed.".toList
    simp [ensureAux, kwTrigger, findKw, firstKw, isPrefixList, boundaryAfter,
      keywords, isWordChar, kwLast]

/-- Witness for C5: the conjunct with a hypothesis applied at a concrete
input: a text whose keywords all start their lines is left unchanged by
the Keyword-Liner. -/
theorem c5_rewrite_only_off_line_start_witness :
    ensure_newline_before_keywords "Qed.\nProof.".toList = "Qed.\nProof.".toList :=
  c5_rewrite_only_off_line_start.2.2.1 "Qed.\nProof.".toList (by decide)

/-- C6: trigger keywords are matched only as whole words: at a position
whose preceding character is a word character no rewrite happens (the
scan just copies the character), the matched keyword is never
immediately followed by a word character (the trailing boundary of the
alternation), and concretely the texts "see myLemma" (keyword inside a
longer identifier) and "ab Admitx cd" (keyword followed by a word
character) are left unchanged. -/
theorem c6_whole_word_only :
    (∀ (q c : Char) (w : List Char), isWordChar q = true →
        ensureAux (some q) (c :: w) = c :: ensureAux (some c) w) ∧
      (∀ u kw : List Char, findKw u = some kw → boundaryAfter kw u = true) ∧
      ensure_newline_before_keywords "see myLemma".toList = "see myLemma".toList ∧
      ensure_newline_before_keywords "ab Admitx cd".toList = "ab Admitx cd".toList := by
  refine ⟨?_, ?_, ?_, ?_⟩
  · intro q c w hq
    exact ensureAux_cons_none _ _ _ (by simp [kwTrigger, hq])
  · intro u kw h
    exact (findKw_some u kw h).2.2
  · exact ensure_id none _ (by decide)
  · exact ensure_id none _ (by decide)

/-- Witness for C6: both general parts applied at concrete inputs. -/
theorem c6_whole_word_only_witness :
    ensureAux (some 'y') ('L' :: "emma!".toList) =
        'L' :: ensureAux (some 'L') "emma!".toList ∧
      boundaryAfter "Qed".toList "Qed.".toList = true :=
  ⟨c6_whole_word_only.1 'y' 'L' "emma!".toList (by decide),
    c6_whole_word_only.2.1 "Qed.".toList "Qed".toList (by decide)⟩

/-- C8: on the degenerate empty comment the pipeline inserts exactly one
space: the open marker receives a space after it, and the close marker,
now preceded by that inserted space, receives no additional space. -/
theorem c8_empty_comment_single_space :
    format_coq_code "(**)".toList = "(* *)".toList := by
  show replaceCR (replaceCRLF (ensureAux none
    (subCloseAux none (subOpen "(**)".toList)))) = "(* *)".toList
  have h1 : subCloseAux none (subOpen "(**)".toList) = "(* *)".toList := by decide
  rw [h1, ensure_id none _ (by decide)]
  decide

/-! ## Document boundaries behave as non-whitespace for the Comment-Spacer -/

theorem subOpen_trailing_aux : ∀ (n : Nat) (r : List Char), r.length ≤ n →
    ∃ w, subOpen (r ++ ['(', '*']) = w ++ ['(', '*', ' '] := by
  intro n
  induction n with
  | zero =>
    intro r hr
    match r, hr with
    | [], _ => exact ⟨[], by decide⟩
  | succ n ih =>
    intro r hr
    match r with
    | [] => exact ⟨[], by decide⟩
    | [a] =>
      rw [List.cons_append, List.nil_append,
        subOpen_cons_ne a '(' ['*'] (by intro hcc; exact absurd hcc.2.1 (by decide))]
      exact ⟨[a], by rw [show subOpen ['(', '*'] = ['(', '*', ' '] from by decide]; rfl⟩
    | a :: b :: r3 =>
      rw [List.cons_append, List.cons_append]
      by_cases hc : a = '(' ∧ b = '*' ∧ nextNotSpace (r3 ++ ['(', '*']) = true
      · obtain ⟨rfl, rfl, hnns⟩ := hc
        obtain ⟨w3, hw3⟩ := ih r3 (by simp at hr; omega)
        rw [subOpen_match _ hnns, hw3]
        exact ⟨'(' :: '*' :: ' ' :: w3, rfl⟩
      · obtain ⟨w2, hw2⟩ := ih (b :: r3) (by simp at hr ⊢; omega)
        rw [subOpen_cons_ne a b _ hc, show b :: (r3 ++ ['(', '*']) = (b :: r3) ++ ['(', '*']
          from rfl, hw2]
        exact ⟨a :: w2, rfl⟩

theorem subOpen_trailing (r : List Char) :
    ∃ w, subOpen (r ++ ['(', '*']) = w ++ ['(', '*', ' '] :=
  subOpen_trailing_aux r.length r (Nat.le_refl _)

theorem getLast?_cons_congr (c : Char) (l1 l2 : List Char)
    (h : l1.getLast? = l2.getLast?) : (c :: l1).getLast? = (c :: l2).getLast? := by
  match l1, l2 with
  | [], [] => rfl
  | [], x :: l2 =>
    exfalso
    have := List.getLast?_eq_none_iff.mp h.symm
    simp at this
  | x :: l1, [] =>
    exfalso
    have := List.getLast?_eq_none_iff.mp h
    simp at this
  | x :: l1, y :: l2 =>
    rw [List.getLast?_cons_cons, List.getLast?_cons_cons]
    exact h

theorem getLast?_cons_of_ne_nil (c : Char) (l : List Char) (h : l ≠ []) :
    (c :: l).getLast? = l.getLast? := by
  match l with
  | [] => exact absurd rfl h
  | x :: l2 => rw [List.getLast?_cons_cons]

theorem subClose_getLast : ∀ (p : Option Char) (t : List Char),
    (subCloseAux p t).getLast? = t.getLast? := by
  intro p t
  induction p, t using subCloseAux.induct with
  | case1 p => rfl
  | case2 p c => rfl
  | case3 p a b rest h ih =>
    obtain ⟨rfl, rfl, hpns⟩ := h
    rw [subClose_match p rest hpns, List.getLast?_cons_cons, List.getLast?_cons_cons,
      List.getLast?_cons_cons]
    exact getLast?_cons_congr ')' _ _ ih
  | case4 p a b rest h ih =>
    rw [subClose_cons_ne p a b rest h]
    have hne : subCloseAux (some a) (b :: rest) ≠ [] := by
      rcases subClose_head (some a) b rest with hh | hh <;>
        · intro heq
          rw [heq] at hh
          cases hh
    rw [getLast?_cons_of_ne_nil a _ hne, ih, List.getLast?_cons_cons]

/-- C9: document boundaries are treated as non-whitespace by the
Comment-Spacer: on an input beginning with the close marker the output
of format_comment_spaces begins with a space, and on an input ending
with the open marker the output ends with a space. -/
theorem c9_document_boundaries_nonspace :
    (∀ r : List Char, (format_comment_spaces ('*' :: ')' :: r)).head? = some ' ') ∧
      (∀ r : List Char, (format_comment_spaces (r ++ ['(', '*'])).getLast? = some ' ') := by
  constructor
  · intro r
    show (subCloseAux none (subOpen ('*' :: ')' :: r))).head? = some ' '
    rw [subOpen_cons_of_ne '*' _ (by decide), subOpen_cons_of_ne ')' _ (by decide),
      subClose_match none _ (by decide)]
    rfl
  · intro r
    obtain ⟨w, hw⟩ := subOpen_trailing r
    show (subCloseAux none (subOpen (r ++ ['(', '*']))).getLast? = some ' '
    rw [subClose_getLast, hw, show ['(', '*', ' '] = ['(', '*'] ++ [' '] from rfl,
      ← List.append_assoc, List.getLast?_concat]

theorem catMap_map (f : Nat → List Char) (g : Nat → Nat) :
    ∀ l : List Nat, catMap f (l.map g) = catMap (fun j => f (g j)) l := by
  intro l
  induction l with
  | nil => rfl
  | cons x l2 ih => simp only [List.map_cons, catMap, ih]

theorem catMap_congr (f g : Nat → List Char) :
    ∀ l : List Nat, (∀ j ∈ l, f j = g j) → catMap f l = catMap g l := by
  intro l
  induction l with
  | nil => intro _; rfl
  | cons x l2 ih =>
    intro h
    simp only [catMap, h x (List.mem_cons_self _ _),
      ih (fun j hj => h j (List.mem_cons_of_mem _ hj))]

theorem openSpanAt_cons_succ (a : Char) (v : List Char) (i : Nat) :
    openSpanAt (a :: v) (i + 1) = openSpanAt v i := by
  simp [openSpanAt, List.getElem?_cons_succ]

theorem closeSpanAt_cons_succ (p : Option Char) (a : Char) (v : List Char) (i : Nat) :
    closeSpanAt p (a :: v) (i + 1) = closeSpanAt (some a) v i := by
  match i with
  | 0 => simp [closeSpanAt, prevNotSpace, List.getElem?_cons_succ, List.getElem?_cons_zero]
  | k + 1 => simp [closeSpanAt, List.getElem?_cons_succ]

theorem specOpenSim_cons (a : Char) (v : List Char) :
    specOpenSim (a :: v) = a :: specOpenAux a v := by
  unfold specOpenSim specOpenAux
  rw [show (a :: v).length = v.length + 1 from rfl, List.range_succ_eq_map, catMap,
    catMap_map]
  rw [catMap_congr _ (fun j => (v[j]?).toList ++
      (if openSpanAt (a :: v) j = true then [' '] else [])) (List.range v.length)
    (by intro j _; simp [List.getElem?_cons_succ])]
  simp

theorem specOpenAux_nil (a : Char) : specOpenAux a [] = [] := rfl

theorem specOpenAux_cons (a b : Char) (w : List Char) :
    specOpenAux a (b :: w) =
      b :: ((if openSpanAt (a :: b :: w) 0 = true then [' '] else []) ++ specOpenAux b w) := by
  unfold specOpenAux
  rw [show (b :: w).length = w.length + 1 from rfl, List.range_succ_eq_map, catMap,
    catMap_map]
  rw [catMap_congr _ (fun j => (w[j]?).toList ++
      (if openSpanAt (b :: w) j = true then [' '] else [])) (List.range w.length)
    (by intro j _; simp [List.getElem?_cons_succ, openSpanAt_cons_succ])]
  simp

theorem openSpanAt_zero_two (a b : Char) (w : List Char) :
    openSpanAt (a :: b :: w) 0 =
      (decide (a = '(') && decide (b = '*') && nextNotSpace w) := by
  match w with
  | [] => simp [openSpanAt, nextNotSpace]
  | d :: w2 => simp [openSpanAt, nextNotSpace]

theorem openSpanAt_zero_ne (a : Char) (v : List Char) (h : a ≠ '(') :
    openSpanAt (a :: v) 0 = false := by
  match v with
  | [] => simp [openSpanAt]
  | b :: w =>
    rw [openSpanAt_zero_two]
    simp [h]

theorem specOpenAux_no_span (a : Char) (v : List Char)
    (h : openSpanAt (a :: v) 0 = false) : specOpenAux a v = specOpenSim v := by
  match v with
  | [] => rfl
  | b :: w =>
    rw [specOpenAux_cons, h, specOpenSim_cons]
    simp

theorem subOpen_eq_spec : ∀ t : List Char, subOpen t = specOpenSim t := by
  intro t
  induction t using subOpen.induct with
  | case1 => rfl
  | case2 c =>
    rw [specOpenSim_cons, specOpenAux_nil]
    rfl
  | case3 a b rest h ih =>
    obtain ⟨rfl, rfl, hnns⟩ := h
    have hsp : openSpanAt ('(' :: '*' :: rest) 0 = true := by
      rw [openSpanAt_zero_two, hnns]
      decide
    rw [subOpen_match rest hnns, specOpenSim_cons, specOpenAux_cons, hsp,
      specOpenAux_no_span '*' rest (openSpanAt_zero_ne '*' rest (by decide)), ih]
    rfl
  | case4 a b rest h ih =>
    have hsp : openSpanAt (a :: b :: rest) 0 = false := by
      rw [openSpanAt_zero_two]
      by_cases ha : a = '('
      · by_cases hb : b = '*'
        · subst ha
          subst hb
          have hnn : nextNotSpace rest = false := by
            cases hn : nextNotSpace rest with
            | false => rfl
            | true => exact absurd ⟨rfl, rfl, hn⟩ h
          rw [hnn]
          simp
        · simp [hb]
      · simp [ha]
    rw [subOpen_cons_ne a b rest h, ih, specOpenSim_cons a (b :: rest),
      specOpenAux_no_span a (b :: rest) hsp]

theorem specCloseSim_cons (p : Option Char) (a : Char) (v : List Char) :
    specCloseSim p (a :: v) =
      (if closeSpanAt p (a :: v) 0 = true then [' '] else []) ++
        (a :: specCloseSim (some a) v) := by
  unfold specCloseSim
  rw [show (a :: v).length = v.length + 1 from rfl, List.range_succ_eq_map, catMap,
    catMap_map]
  rw [catMap_congr _ (fun j => (if closeSpanAt (some a) v j = true then [' '] else []) ++
      (v[j]?).toList) (List.range v.length)
    (by intro j _; simp [List.getElem?_cons_succ, closeSpanAt_cons_succ])]
  simp

theorem closeSpanAt_zero_two (p : Option Char) (a b : Char) (w : List Char) :
    closeSpanAt p (a :: b :: w) 0 =
      (decide (a = '*') && decide (b = ')') && prevNotSpace p) := by
  simp [closeSpanAt]

theorem closeSpanAt_zero_single (p : Option Char) (c : Char) :
    closeSpanAt p [c] 0 = false := by
  simp [closeSpanAt]

theorem subClose_eq_spec : ∀ (p : Option Char) (t : List Char),
    subCloseAux p t = specCloseSim p t := by
  intro p t
  induction p, t using subCloseAux.induct with
  | case1 p => rfl
  | case2 p c =>
    rw [specCloseSim_cons, closeSpanAt_zero_single]
    rfl
  | case3 p a b rest h ih =>
    obtain ⟨rfl, rfl, hpns⟩ := h
    have hsp : closeSpanAt p ('*' :: ')' :: rest) 0 = true := by
      rw [closeSpanAt_zero_two, hpns]
      decide
    have hsp2 : closeSpanAt (some '*') (')' :: rest) 0 = false := by
      match rest with
      | [] => exact closeSpanAt_zero_single _ _
      | x :: r2 =>
        rw [closeSpanAt_zero_two]
        simp
    rw [subClose_match p rest hpns, specCloseSim_cons p '*' (')' :: rest), hsp,
      specCloseSim_cons (some '*') ')' rest, hsp2, ih]
    rfl
  | case4 p a b rest h ih =>
    have hsp : closeSpanAt p (a :: b :: rest) 0 = false := by
      rw [closeSpanAt_zero_two]
      by_cases ha : a = '*'
      · by_cases hb : b = ')'
        · subst ha
          subst hb
          have hpn : prevNotSpace p = false := by
            cases hn : prevNotSpace p with
            | false => rfl
            | true => exact absurd ⟨rfl, rfl, hn⟩ h
          rw [hpn]
          simp
        · simp [hb]
      · simp [ha]
    rw [subClose_cons_ne p a b rest h, ih, specCloseSim_cons p a (b :: rest), hsp]
    rfl

/-- C2 counterexample: on the degenerate input made of the four marker
characters of an empty comment, the Comment-Spacer output differs from
the simultaneous non-overlapping replacement of both marker span sets
computed on the original text (which inserts two spaces, one for each
marker, while the code inserts one). -/
theorem c2_not_joint_simultaneous :
    ¬ (format_comment_spaces "(**)".toList = specCommentSim "(**)".toList) := by
  decide

/-- C2 amended: the Comment-Spacer is two sequential simultaneous
replacements, not one: the open-marker pass equals the simultaneous
non-overlapping replacement of all open-marker spans computed on the
original text, and the close-marker pass equals the simultaneous
non-overlapping replacement of all close-marker spans computed on the
result of the open-marker pass (with no preceding character at the
start of the text). -/
theorem c2_two_sequential_simultaneous_passes (t : List Char) :
    subOpen t = specOpenSim t ∧
      format_comment_spaces t = specCloseSim none (specOpenSim t) := by
  refine ⟨subOpen_eq_spec t, ?_⟩
  show subCloseAux none (subOpen t) = specCloseSim none (specOpenSim t)
  rw [subClose_eq_spec none (subOpen t), subOpen_eq_spec t]
